import Mathlib

open List

/-!
Shallow embedding of the order-book matching engine from `src/main.rs`.

Prices and quantities (`f64` in the source) are modelled as rationals `ℚ`;
identifiers (`u64`) as `Nat`.  The two loops of `OrderBook::match_orders`
are index-based in the source; here they are written as structurally
recursive functions over a zipper `(done, rest)` where `done` is the list
of sell (resp. buy) orders strictly before the cursor and `rest` the
orders from the cursor on.  A literal index-based model (`matchInnerC`,
`matchLoopC` below) is also defined and proved equal, which validates the
restructuring and settles the in-bounds claims.
-/

inductive OrderType where
  | Buy : OrderType
  | Sell : OrderType
deriving DecidableEq

structure Order where
  id : Nat
  order_type : OrderType
  price : ℚ
  quantity : ℚ
deriving DecidableEq

structure Trade where
  buy_id : Nat
  sell_id : Nat
  price : ℚ
  quantity : ℚ
deriving DecidableEq

structure OrderBook where
  buy_orders : List Order
  sell_orders : List Order
  trades : List Trade
deriving DecidableEq

def emptyBook : OrderBook := ⟨[], [], []⟩

/-- Sort relation used for `buy_orders`: the source comparator is
`|a, b| b.price.partial_cmp(&a.price).unwrap_or(Equal)`, i.e. descending
by price; `a` may be placed before `b` iff the comparator does not say
`Greater`, i.e. iff `b.price ≤ a.price`. -/
def buyRel (a b : Order) : Prop := b.price ≤ a.price

/-- Sort relation used for `sell_orders`: ascending by price. -/
def sellRel (a b : Order) : Prop := a.price ≤ b.price

instance : DecidableRel buyRel := fun a b => inferInstanceAs (Decidable (b.price ≤ a.price))

instance : DecidableRel sellRel := fun a b => inferInstanceAs (Decidable (a.price ≤ b.price))

instance : IsTotal Order buyRel := ⟨fun a b => le_total b.price a.price⟩

instance : IsTrans Order buyRel := ⟨fun _ _ _ h1 h2 => le_trans h2 h1⟩

instance : IsTotal Order sellRel := ⟨fun a b => le_total a.price b.price⟩

instance : IsTrans Order sellRel := ⟨fun _ _ _ h1 h2 => le_trans h1 h2⟩

/-- `OrderBook::sort_books`: `Vec::sort_by` is a stable sort, whose output
is uniquely determined by the comparator and the input order; it is
modelled by the stable `List.insertionSort`. -/
def sort_books (b : OrderBook) : OrderBook :=
  { b with
    buy_orders := b.buy_orders.insertionSort buyRel
    sell_orders := b.sell_orders.insertionSort sellRel }

/-- Inner `while j < self.sell_orders.len()` loop of
`OrderBook::match_orders`, for the buy order at the outer cursor.
`done` holds the sell orders strictly before the inner cursor `j`
(non-crossing ones the cursor stepped over, and partially filled ones),
`rest` the sell orders from `j` on.  Returns the updated buy order, the
updated sell side, and the trade list with new trades appended. -/
def matchBuyGo (buy : Order) (done rest : List Order) (trades : List Trade) :
    Order × List Order × List Trade :=
  match rest with
  | [] => (buy, done, trades)
  | sell :: rest' =>
    if sell.price ≤ buy.price then
      -- `buy.price >= sell.price`: the pair crosses
      let qty := min buy.quantity sell.quantity
      let t : Trade := ⟨buy.id, sell.id, sell.price, qty⟩
      let buy' : Order := { buy with quantity := buy.quantity - qty }
      let sell' : Order := { sell with quantity := sell.quantity - qty }
      if sell'.quantity = 0 then
        -- `self.sell_orders.remove(j)`
        if buy'.quantity = 0 then (buy', done ++ rest', trades ++ [t])
        else matchBuyGo buy' done rest' (trades ++ [t])
      else
        -- `j += 1`
        if buy'.quantity = 0 then (buy', done ++ sell' :: rest', trades ++ [t])
        else matchBuyGo buy' (done ++ [sell']) rest' (trades ++ [t])
    else
      -- no cross: `j += 1`
      matchBuyGo buy (done ++ [sell]) rest' trades

/-- Outer `while i < self.buy_orders.len()` loop of
`OrderBook::match_orders`.  `done` holds the buy orders strictly before
the outer cursor `i`, `rest` the buy orders from `i` on. -/
def matchLoopGo (done rest sells : List Order) (trades : List Trade) :
    List Order × List Order × List Trade :=
  match rest with
  | [] => (done, sells, trades)
  | buy :: rest' =>
    let r := matchBuyGo buy [] sells trades
    if r.1.quantity = 0 then
      -- `self.buy_orders.remove(i)`
      matchLoopGo done rest' r.2.1 r.2.2
    else
      -- `i += 1`
      matchLoopGo (done ++ [r.1]) rest' r.2.1 r.2.2

/-- `OrderBook::match_orders`: runs the nested scan and appends the new
trades to the book's trade history. -/
def match_orders (b : OrderBook) : OrderBook :=
  let r := matchLoopGo [] b.buy_orders b.sell_orders []
  ⟨r.1, r.2.1, b.trades ++ r.2.2⟩

/-- The `match order.order_type` insertion in `OrderBook::add_order`:
`Vec::push` appends at the end of the side's sequence. -/
def insertOrder (b : OrderBook) (o : Order) : OrderBook :=
  match o.order_type with
  | OrderType.Buy => { b with buy_orders := b.buy_orders ++ [o] }
  | OrderType.Sell => { b with sell_orders := b.sell_orders ++ [o] }

/-- `OrderBook::add_order`: insert, then `sort_books`, then `match_orders`. -/
def add_order (b : OrderBook) (o : Order) : OrderBook :=
  match_orders (sort_books (insertOrder b o))

/-- Submitting a sequence of orders to the empty book. -/
def submitAll (os : List Order) : OrderBook := os.foldl add_order emptyBook

/-- All resting orders of a book, both sides. -/
def bookOrders (b : OrderBook) : List Order := b.buy_orders ++ b.sell_orders

example :
    submitAll [⟨1, OrderType.Buy, 100, 3⟩, ⟨2, OrderType.Sell, 99, 2⟩] =
      ⟨[⟨1, OrderType.Buy, 100, 1⟩], [], [⟨1, 2, 99, 2⟩]⟩ := by with_unfolding_all rfl

/-! ### Helper lemmas: ids and prices are immutable, only quantities change -/

/-- The immutable part of an order: its id and price. -/
def key (o : Order) : Nat × ℚ := (o.id, o.price)

theorem matchBuyGo_id_price (buy : Order) (done rest : List Order) (tr : List Trade) :
    (matchBuyGo buy done rest tr).1.id = buy.id ∧
      (matchBuyGo buy done rest tr).1.price = buy.price := by
  induction rest generalizing buy done tr with
  | nil => simp [matchBuyGo]
  | cons sell rest' ih =>
    simp only [matchBuyGo]
    split_ifs with hc hs hb hb
    · exact ⟨rfl, rfl⟩
    · exact ih _ _ _
    · exact ⟨rfl, rfl⟩
    · exact ih _ _ _
    · exact ih _ _ _

theorem matchBuyGo_sells_key (buy : Order) (done rest : List Order) (tr : List Trade) :
    ((matchBuyGo buy done rest tr).2.1).map key <+ (done ++ rest).map key := by
  induction rest generalizing buy done tr with
  | nil => simp [matchBuyGo]
  | cons sell rest' ih =>
    simp only [matchBuyGo]
    split_ifs with hc hs hb hb
    · simpa using ((rest'.sublist_cons_self sell).append_left done).map key
    · exact (ih _ _ _).trans
        (by simpa using ((rest'.sublist_cons_self sell).append_left done).map key)
    · simp [key]
    · have := ih { buy with quantity := buy.quantity - min buy.quantity sell.quantity }
        (done ++ [{ sell with quantity := sell.quantity - min buy.quantity sell.quantity }])
        (tr ++ [⟨buy.id, sell.id, sell.price, min buy.quantity sell.quantity⟩])
      simpa [key] using this
    · have := ih buy (done ++ [sell]) tr
      simpa using this

theorem matchLoopGo_buys_key (done rest sells : List Order) (tr : List Trade) :
    ((matchLoopGo done rest sells tr).1).map key <+ (done ++ rest).map key := by
  induction rest generalizing done sells tr with
  | nil => simp [matchLoopGo]
  | cons buy rest' ih =>
    simp only [matchLoopGo]
    split_ifs with hq
    · exact (ih _ _ _).trans
        (by simpa using ((rest'.sublist_cons_self buy).append_left done).map key)
    · have h1 := ih (done ++ [(matchBuyGo buy [] sells tr).1]) (matchBuyGo buy [] sells tr).2.1
        (matchBuyGo buy [] sells tr).2.2
      have hk : key (matchBuyGo buy [] sells tr).1 = key buy := by
        have := matchBuyGo_id_price buy [] sells tr
        simp [key, this.1, this.2]
      simpa [hk] using h1

theorem matchLoopGo_sells_key (done rest sells : List Order) (tr : List Trade) :
    ((matchLoopGo done rest sells tr).2.1).map key <+ sells.map key := by
  induction rest generalizing done sells tr with
  | nil => simp [matchLoopGo]
  | cons buy rest' ih =>
    simp only [matchLoopGo]
    have hin : ((matchBuyGo buy [] sells tr).2.1).map key <+ sells.map key := by
      simpa using matchBuyGo_sells_key buy [] sells tr
    split_ifs with hq
    · exact (ih _ _ _).trans hin
    · exact (ih _ _ _).trans hin

theorem key_sublist_pairwise {Q : (Nat × ℚ) → (Nat × ℚ) → Prop} {l' l : List Order}
    (hs : l'.map key <+ l.map key) (hp : l.Pairwise (fun a b => Q (key a) (key b))) :
    l'.Pairwise (fun a b => Q (key a) (key b)) :=
  List.pairwise_map.mp ((List.pairwise_map.mpr hp).sublist hs)

theorem key_sublist_mem {l' l : List Order} (hs : l'.map key <+ l.map key) {x : Order}
    (hx : x ∈ l') : ∃ y ∈ l, y.id = x.id ∧ y.price = x.price := by
  have : key x ∈ l.map key := hs.subset (List.mem_map_of_mem key hx)
  rcases List.mem_map.mp this with ⟨y, hy, hk⟩
  exact ⟨y, hy, congrArg Prod.fst hk, congrArg Prod.snd hk⟩

/-! ### No crossing survives the match step (C1) -/

theorem matchBuyGo_nocross (buy : Order) (done rest : List Order) (tr : List Trade)
    (hd : ∀ s ∈ done, buy.price < s.price)
    (hq : (matchBuyGo buy done rest tr).1.quantity ≠ 0) :
    ∀ s ∈ (matchBuyGo buy done rest tr).2.1, buy.price < s.price := by
  induction rest generalizing buy done tr with
  | nil =>
    simpa [matchBuyGo] using hd
  | cons sell rest' ih =>
    simp only [matchBuyGo] at hq ⊢
    split_ifs at hq ⊢ with hc hs hb hb
    · exact absurd hb hq
    · exact ih _ _ _ hd hq
    · exact absurd hb hq
    · -- dead branch: one of the two sides is exhausted by `min`
      exfalso
      rcases le_total buy.quantity sell.quantity with h | h
      · exact hb (by rw [min_eq_left h, sub_self])
      · exact hs (by rw [min_eq_right h, sub_self])
    · refine ih buy (done ++ [sell]) tr (fun s hmem => ?_) hq
      rcases List.mem_append.mp hmem with h | h
      · exact hd s h
      · rcases List.mem_singleton.mp h with rfl
        exact lt_of_not_le hc

theorem matchLoopGo_nocross (done rest sells : List Order) (tr : List Trade)
    (hd : ∀ b ∈ done, ∀ s ∈ sells, b.price < s.price) :
    ∀ b ∈ (matchLoopGo done rest sells tr).1,
      ∀ s ∈ (matchLoopGo done rest sells tr).2.1, b.price < s.price := by
  induction rest generalizing done sells tr with
  | nil =>
    simpa [matchLoopGo] using hd
  | cons buy rest' ih =>
    simp only [matchLoopGo]
    have hkey : ((matchBuyGo buy [] sells tr).2.1).map key <+ sells.map key := by
      simpa using matchBuyGo_sells_key buy [] sells tr
    split_ifs with hq
    · refine ih done _ _ (fun b hb s hs => ?_)
      rcases key_sublist_mem hkey hs with ⟨y, hy, _, hyp⟩
      rw [← hyp]
      exact hd b hb y hy
    · refine ih (done ++ [(matchBuyGo buy [] sells tr).1]) _ _ (fun b hb s hs => ?_)
      rcases List.mem_append.mp hb with h | h
      · rcases key_sublist_mem hkey hs with ⟨y, hy, _, hyp⟩
        rw [← hyp]
        exact hd b h y hy
      · rcases List.mem_singleton.mp h with rfl
        have hp := (matchBuyGo_id_price buy [] sells tr).2
        rw [hp]
        exact matchBuyGo_nocross buy [] sells tr (by simp) hq s hs

/-- Decidable crossing check: `true` iff some resting buy price is at or
above some resting sell price. -/
def crossedB (b : OrderBook) : Bool :=
  b.buy_orders.any fun x => b.sell_orders.any fun s => decide (s.price ≤ x.price)

theorem match_orders_nocross (b : OrderBook) : crossedB (match_orders b) = false := by
  have h := matchLoopGo_nocross [] b.buy_orders b.sell_orders [] (by simp)
  simp only [crossedB, match_orders, List.any_eq_false]
  intro x hx
  simp only [List.any_eq_true, decide_eq_true_eq]
  rintro ⟨s, hs, hle⟩
  exact absurd hle (not_le.mpr (h x hx s hs))

/-- C1: for every book state and every submitted order, after `add_order`
returns there is no pair `(b, s)` with `b` in `buy_orders`, `s` in
`sell_orders` and `b.price ≥ s.price`: the book is always left in a
non-crossed state. -/
theorem C1_no_cross_after_add_order (book : OrderBook) (o : Order) :
    crossedB (add_order book o) = false :=
  match_orders_nocross (sort_books (insertOrder book o))

/-! ### Price priority: both sides stay sorted (C2) -/

/-- Decidable check that a buy list is non-increasing by price. -/
def sortedDescB : List Order → Bool
  | [] => true
  | [_] => true
  | a :: b :: t => decide (b.price ≤ a.price) && sortedDescB (b :: t)

/-- Decidable check that a sell list is non-decreasing by price. -/
def sortedAscB : List Order → Bool
  | [] => true
  | [_] => true
  | a :: b :: t => decide (a.price ≤ b.price) && sortedAscB (b :: t)

theorem sortedDescB_of_pairwise : ∀ l : List Order, l.Pairwise buyRel → sortedDescB l = true
  | [], _ => rfl
  | [_], _ => rfl
  | a :: b :: t, h => by
    rcases List.pairwise_cons.mp h with ⟨ha, h'⟩
    simp only [sortedDescB, Bool.and_eq_true, decide_eq_true_eq]
    exact ⟨ha b (List.mem_cons_self b t), sortedDescB_of_pairwise (b :: t) h'⟩

theorem sortedAscB_of_pairwise : ∀ l : List Order, l.Pairwise sellRel → sortedAscB l = true
  | [], _ => rfl
  | [_], _ => rfl
  | a :: b :: t, h => by
    rcases List.pairwise_cons.mp h with ⟨ha, h'⟩
    simp only [sortedAscB, Bool.and_eq_true, decide_eq_true_eq]
    exact ⟨ha b (List.mem_cons_self b t), sortedAscB_of_pairwise (b :: t) h'⟩

theorem match_orders_sorted (b : OrderBook) (hb : b.buy_orders.Pairwise buyRel)
    (hs : b.sell_orders.Pairwise sellRel) :
    (match_orders b).buy_orders.Pairwise buyRel ∧
      (match_orders b).sell_orders.Pairwise sellRel := by
  constructor
  · have hsub : ((matchLoopGo [] b.buy_orders b.sell_orders []).1).map key <+
        b.buy_orders.map key := by
      simpa using matchLoopGo_buys_key [] b.buy_orders b.sell_orders []
    exact key_sublist_pairwise (Q := fun x y => y.2 ≤ x.2) hsub hb
  · have hsub : ((matchLoopGo [] b.buy_orders b.sell_orders []).2.1).map key <+
        b.sell_orders.map key :=
      matchLoopGo_sells_key [] b.buy_orders b.sell_orders []
    exact key_sublist_pairwise (Q := fun x y => x.2 ≤ y.2) hsub hs

theorem add_order_sorted (book : OrderBook) (o : Order) :
    (add_order book o).buy_orders.Pairwise buyRel ∧
      (add_order book o).sell_orders.Pairwise sellRel :=
  match_orders_sorted _ (List.sorted_insertionSort buyRel _) (List.sorted_insertionSort sellRel _)

theorem foldl_add_order_sorted : ∀ (os : List Order) (book : OrderBook),
    book.buy_orders.Pairwise buyRel → book.sell_orders.Pairwise sellRel →
    (os.foldl add_order book).buy_orders.Pairwise buyRel ∧
      (os.foldl add_order book).sell_orders.Pairwise sellRel
  | [], book, hb, hs => ⟨hb, hs⟩
  | o :: os', book, _, _ => by
    have h := add_order_sorted book o
    exact foldl_add_order_sorted os' (add_order book o) h.1 h.2

/-- C2: after any sequence of `submit` calls starting from the empty book,
`buy_orders` is non-increasing by price and `sell_orders` is
non-decreasing by price. -/
theorem C2_price_priority (os : List Order) :
    sortedDescB (submitAll os).buy_orders = true ∧
      sortedAscB (submitAll os).sell_orders = true := by
  have h := foldl_add_order_sorted os emptyBook (by simp [emptyBook]) (by simp [emptyBook])
  exact ⟨sortedDescB_of_pairwise _ h.1, sortedAscB_of_pairwise _ h.2⟩

/-! ### Zero-quantity exclusion (C3) -/

/-- Decidable check that no resting order has quantity zero. -/
def noZeroB (b : OrderBook) : Bool :=
  (b.buy_orders ++ b.sell_orders).all fun o => decide (o.quantity ≠ 0)

/-- A sell order with quantity `0`, a non-negative quantity. -/
def zeroSell : Order := ⟨1, OrderType.Sell, 10, 0⟩

theorem matchBuyGo_pos (buy : Order) (done rest : List Order) (tr : List Trade)
    (hb : 0 < buy.quantity) (hs : ∀ s ∈ done ++ rest, 0 < s.quantity) :
    (∀ s ∈ (matchBuyGo buy done rest tr).2.1, 0 < s.quantity) ∧
      0 ≤ (matchBuyGo buy done rest tr).1.quantity := by
  induction rest generalizing buy done tr with
  | nil =>
    simp only [matchBuyGo]
    exact ⟨fun s h => hs s (by simpa using h), le_of_lt hb⟩
  | cons sell rest' ih =>
    simp only [matchBuyGo]
    have hmin_b : 0 ≤ buy.quantity - min buy.quantity sell.quantity :=
      sub_nonneg.mpr (min_le_left _ _)
    have hmin_s : 0 ≤ sell.quantity - min buy.quantity sell.quantity :=
      sub_nonneg.mpr (min_le_right _ _)
    split_ifs with hc h0 hq hq
    · refine ⟨fun s h => hs s ?_, by simpa using hmin_b⟩
      rcases List.mem_append.mp h with h | h
      · exact List.mem_append.mpr (Or.inl h)
      · exact List.mem_append.mpr (Or.inr (List.mem_cons_of_mem sell h))
    · refine ih _ _ _ (lt_of_le_of_ne hmin_b (Ne.symm hq)) (fun s h => hs s ?_)
      rcases List.mem_append.mp h with h | h
      · exact List.mem_append.mpr (Or.inl h)
      · exact List.mem_append.mpr (Or.inr (List.mem_cons_of_mem sell h))
    · refine ⟨fun s h => ?_, by simpa using hmin_b⟩
      rcases List.mem_append.mp h with h | h
      · exact hs s (List.mem_append.mpr (Or.inl h))
      · rcases List.mem_cons.mp h with rfl | h
        · exact lt_of_le_of_ne hmin_s (Ne.symm h0)
        · exact hs s (List.mem_append.mpr (Or.inr (List.mem_cons_of_mem sell h)))
    · refine ih _ _ _ (lt_of_le_of_ne hmin_b (Ne.symm hq)) (fun s h => ?_)
      rcases List.mem_append.mp h with h | h
      · rcases List.mem_append.mp h with h | h
        · exact hs s (List.mem_append.mpr (Or.inl h))
        · rcases List.mem_singleton.mp h with rfl
          exact lt_of_le_of_ne hmin_s (Ne.symm h0)
      · exact hs s (List.mem_append.mpr (Or.inr (List.mem_cons_of_mem sell h)))
    · refine ih _ _ _ hb (fun s h => ?_)
      rcases List.mem_append.mp h with h | h
      · rcases List.mem_append.mp h with h | h
        · exact hs s (List.mem_append.mpr (Or.inl h))
        · rcases List.mem_singleton.mp h with rfl
          exact hs s (List.mem_append.mpr (Or.inr (List.mem_cons_self s rest')))
      · exact hs s (List.mem_append.mpr (Or.inr (List.mem_cons_of_mem sell h)))

theorem matchLoopGo_pos (done rest sells : List Order) (tr : List Trade)
    (hb : ∀ b ∈ done ++ rest, 0 < b.quantity) (hs : ∀ s ∈ sells, 0 < s.quantity) :
    (∀ b ∈ (matchLoopGo done rest sells tr).1, 0 < b.quantity) ∧
      (∀ s ∈ (matchLoopGo done rest sells tr).2.1, 0 < s.quantity) := by
  induction rest generalizing done sells tr with
  | nil =>
    simp only [matchLoopGo]
    exact ⟨fun b h => hb b (by simpa using h), hs⟩
  | cons buy rest' ih =>
    simp only [matchLoopGo]
    have hbuy : 0 < buy.quantity :=
      hb buy (List.mem_append.mpr (Or.inr (List.mem_cons_self buy rest')))
    have hinner := matchBuyGo_pos buy [] sells tr hbuy (by simpa using hs)
    split_ifs with hq
    · refine ih done _ _ (fun b h => hb b ?_) hinner.1
      rcases List.mem_append.mp h with h | h
      · exact List.mem_append.mpr (Or.inl h)
      · exact List.mem_append.mpr (Or.inr (List.mem_cons_of_mem buy h))
    · refine ih _ _ _ (fun b h => ?_) hinner.1
      rcases List.mem_append.mp h with h | h
      · rcases List.mem_append.mp h with h | h
        · exact hb b (List.mem_append.mpr (Or.inl h))
        · rcases List.mem_singleton.mp h with rfl
          exact lt_of_le_of_ne hinner.2 (Ne.symm hq)
      · exact hb b (List.mem_append.mpr (Or.inr (List.mem_cons_of_mem buy h)))

theorem add_order_pos (book : OrderBook) (o : Order)
    (hbook : ∀ x ∈ bookOrders book, 0 < x.quantity) (ho : 0 < o.quantity) :
    ∀ x ∈ bookOrders (add_order book o), 0 < x.quantity := by
  intro x hx
  have hins : ∀ y ∈ bookOrders (insertOrder book o), 0 < y.quantity := by
    intro y hy
    cases hot : o.order_type with
    | Buy =>
      simp only [bookOrders, insertOrder, hot] at hy
      rcases List.mem_append.mp hy with h | h
      · rcases List.mem_append.mp h with h | h
        · exact hbook y (List.mem_append.mpr (Or.inl h))
        · rcases List.mem_singleton.mp h with rfl
          exact ho
      · exact hbook y (List.mem_append.mpr (Or.inr h))
    | Sell =>
      simp only [bookOrders, insertOrder, hot] at hy
      rcases List.mem_append.mp hy with h | h
      · exact hbook y (List.mem_append.mpr (Or.inl h))
      · rcases List.mem_append.mp h with h | h
        · exact hbook y (List.mem_append.mpr (Or.inr h))
        · rcases List.mem_singleton.mp h with rfl
          exact ho
  have hsorted : ∀ y ∈ bookOrders (sort_books (insertOrder book o)), 0 < y.quantity := by
    intro y hy
    rcases List.mem_append.mp hy with h | h
    · exact hins y (List.mem_append.mpr (Or.inl ((List.mem_insertionSort buyRel).mp h)))
    · exact hins y (List.mem_append.mpr (Or.inr ((List.mem_insertionSort sellRel).mp h)))
  have hm := matchLoopGo_pos [] (sort_books (insertOrder book o)).buy_orders
      (sort_books (insertOrder book o)).sell_orders []
      (by simpa using fun y hy => hsorted y (List.mem_append.mpr (Or.inl hy)))
      (fun y hy => hsorted y (List.mem_append.mpr (Or.inr hy)))
  rcases List.mem_append.mp hx with h | h
  · exact hm.1 x h
  · exact hm.2 x h

theorem submitAll_pos : ∀ (os : List Order) (book : OrderBook),
    (∀ x ∈ bookOrders book, 0 < x.quantity) → (∀ o ∈ os, 0 < o.quantity) →
    ∀ x ∈ bookOrders (os.foldl add_order book), 0 < x.quantity
  | [], _, hbook, _ => hbook
  | o :: os', book, hbook, hos => by
    refine submitAll_pos os' (add_order book o)
      (add_order_pos book o hbook (hos o (List.mem_cons_self o os'))) ?_
    exact fun o' h => hos o' (List.mem_cons_of_mem o h)

/-- C3 counterexample: submitting a single sell order with quantity `0`
(a non-negative quantity) leaves that zero-quantity order resting in
`sell_orders`, because the match scan never visits the sell side while
`buy_orders` is empty. -/
theorem C3_counterexample :
    (∀ o ∈ [zeroSell], 0 ≤ o.quantity) ∧ noZeroB (submitAll [zeroSell]) = false := by
  constructor
  · intro o h
    rcases List.mem_singleton.mp h with rfl
    exact le_refl 0
  · with_unfolding_all rfl

/-- C3 (amended): for every sequence of submitted orders with positive
quantity, after each `add_order` call returns no order with
`quantity == 0` is present in `buy_orders` or `sell_orders`.  (As stated,
with merely non-negative quantities, the claim fails: see
`C3_counterexample`.) -/
theorem C3_no_zero_quantity (os : List Order) (h : ∀ o ∈ os, 0 < o.quantity) :
    noZeroB (submitAll os) = true := by
  have hpos := submitAll_pos os emptyBook (by simp [bookOrders, emptyBook]) h
  simp only [noZeroB, List.all_eq_true, decide_eq_true_eq]
  exact fun o ho => ne_of_gt (hpos o ho)

theorem C3_no_zero_quantity_witness :
    (∀ o ∈ [(⟨1, OrderType.Buy, 10, 2⟩ : Order), ⟨2, OrderType.Sell, 10, 1⟩], 0 < o.quantity) ∧
      noZeroB (submitAll [(⟨1, OrderType.Buy, 10, 2⟩ : Order), ⟨2, OrderType.Sell, 10, 1⟩]) =
        true := by
  have h : ∀ o ∈ [(⟨1, OrderType.Buy, 10, 2⟩ : Order), ⟨2, OrderType.Sell, 10, 1⟩],
      0 < o.quantity := by
    intro o ho
    rcases List.mem_cons.mp ho with rfl | ho
    · norm_num
    · rcases List.mem_singleton.mp ho with rfl
      norm_num
  exact ⟨h, C3_no_zero_quantity _ h⟩

/-! ### Trade price convention (C4) and trade provenance -/

theorem matchBuyGo_trades (buy : Order) (done rest : List Order) (tr : List Trade) :
    ∀ t ∈ (matchBuyGo buy done rest tr).2.2,
      t ∈ tr ∨ (t.buy_id = buy.id ∧ ∃ s ∈ rest, t.sell_id = s.id ∧ t.price = s.price) := by
  induction rest generalizing buy done tr with
  | nil =>
    intro t ht
    exact Or.inl (by simpa [matchBuyGo] using ht)
  | cons sell rest' ih =>
    intro t ht
    simp only [matchBuyGo] at ht
    split_ifs at ht with hc hs hb hb
    · rcases List.mem_append.mp ht with h | h
      · exact Or.inl h
      · rcases List.mem_singleton.mp h with rfl
        exact Or.inr ⟨rfl, sell, List.mem_cons_self sell rest', rfl, rfl⟩
    · rcases ih _ _ _ t ht with h | ⟨hid, s, hmem, hsid, hsp⟩
      · rcases List.mem_append.mp h with h | h
        · exact Or.inl h
        · rcases List.mem_singleton.mp h with rfl
          exact Or.inr ⟨rfl, sell, List.mem_cons_self sell rest', rfl, rfl⟩
      · exact Or.inr ⟨hid, s, List.mem_cons_of_mem sell hmem, hsid, hsp⟩
    · rcases List.mem_append.mp ht with h | h
      · exact Or.inl h
      · rcases List.mem_singleton.mp h with rfl
        exact Or.inr ⟨rfl, sell, List.mem_cons_self sell rest', rfl, rfl⟩
    · rcases ih _ _ _ t ht with h | ⟨hid, s, hmem, hsid, hsp⟩
      · rcases List.mem_append.mp h with h | h
        · exact Or.inl h
        · rcases List.mem_singleton.mp h with rfl
          exact Or.inr ⟨rfl, sell, List.mem_cons_self sell rest', rfl, rfl⟩
      · exact Or.inr ⟨hid, s, List.mem_cons_of_mem sell hmem, hsid, hsp⟩
    · rcases ih _ _ _ t ht with h | ⟨hid, s, hmem, hsid, hsp⟩
      · exact Or.inl h
      · exact Or.inr ⟨hid, s, List.mem_cons_of_mem sell hmem, hsid, hsp⟩

theorem matchLoopGo_trades (done rest sells : List Order) (tr : List Trade) :
    ∀ t ∈ (matchLoopGo done rest sells tr).2.2,
      t ∈ tr ∨ ((∃ b ∈ rest, t.buy_id = b.id) ∧
        ∃ s ∈ sells, t.sell_id = s.id ∧ t.price = s.price) := by
  induction rest generalizing done sells tr with
  | nil =>
    intro t ht
    exact Or.inl (by simpa [matchLoopGo] using ht)
  | cons buy rest' ih =>
    intro t ht
    simp only [matchLoopGo] at ht
    have hkey : ((matchBuyGo buy [] sells tr).2.1).map key <+ sells.map key := by
      simpa using matchBuyGo_sells_key buy [] sells tr
    have step : ∀ t ∈ (matchBuyGo buy [] sells tr).2.2,
        t ∈ tr ∨ ((∃ b ∈ buy :: rest', t.buy_id = b.id) ∧
          ∃ s ∈ sells, t.sell_id = s.id ∧ t.price = s.price) := by
      intro t' ht'
      rcases matchBuyGo_trades buy [] sells tr t' ht' with h | ⟨hid, s, hmem, hsid, hsp⟩
      · exact Or.inl h
      · exact Or.inr ⟨⟨buy, List.mem_cons_self buy rest', hid⟩, s, hmem, hsid, hsp⟩
    have lift : ∀ t ∈ (matchLoopGo done rest' (matchBuyGo buy [] sells tr).2.1
        (matchBuyGo buy [] sells tr).2.2).2.2,
        t ∈ tr ∨ ((∃ b ∈ buy :: rest', t.buy_id = b.id) ∧
          ∃ s ∈ sells, t.sell_id = s.id ∧ t.price = s.price) := by
      intro t' ht'
      rcases ih done _ _ t' ht' with h | ⟨⟨b, hbm, hbid⟩, s, hmem, hsid, hsp⟩
      · exact step t' h
      · rcases key_sublist_mem hkey hmem with ⟨y, hy, hyid, hyp⟩
        exact Or.inr ⟨⟨b, List.mem_cons_of_mem buy hbm, hbid⟩, y, hy,
          hsid.trans hyid.symm, hsp.trans hyp.symm⟩
    split_ifs at ht with hq
    · exact lift t ht
    · rcases ih (done ++ [(matchBuyGo buy [] sells tr).1]) _ _ t ht with
        h | ⟨⟨b, hbm, hbid⟩, s, hmem, hsid, hsp⟩
      · exact step t h
      · rcases key_sublist_mem hkey hmem with ⟨y, hy, hyid, hyp⟩
        exact Or.inr ⟨⟨b, List.mem_cons_of_mem buy hbm, hbid⟩, y, hy,
          hsid.trans hyid.symm, hsp.trans hyp.symm⟩

/-- The trades appended by one `add_order` call. -/
def newTrades (book : OrderBook) (o : Order) : List Trade :=
  (add_order book o).trades.drop book.trades.length

/-- Decidable check of the passive-price convention for one `add_order`
call: each newly appended trade carries the id and the price of a sell
order resting in the book at the moment the match step starts (sell
prices and ids are immutable, so that is also its price at the moment of
matching). -/
def tradePriceOKB (book : OrderBook) (o : Order) : Bool :=
  (newTrades book o).all fun t =>
    (sort_books (insertOrder book o)).sell_orders.any fun s =>
      decide (t.sell_id = s.id) && decide (t.price = s.price)

theorem insertOrder_trades (book : OrderBook) (o : Order) :
    (insertOrder book o).trades = book.trades := by
  cases hot : o.order_type <;> simp [insertOrder, hot]

/-- C4: every trade appended to the history by an `add_order` call has
the id and price of a sell order present in the (sorted) book at the
start of the match step; in particular its price is the referenced sell
order's price at the moment of matching (passive-price execution). -/
theorem C4_trade_price_convention (book : OrderBook) (o : Order) :
    tradePriceOKB book o = true := by
  have htr : (add_order book o).trades =
      book.trades ++ (matchLoopGo [] (sort_books (insertOrder book o)).buy_orders
        (sort_books (insertOrder book o)).sell_orders []).2.2 := by
    simp [add_order, match_orders, sort_books, insertOrder_trades]
  simp only [tradePriceOKB, newTrades, htr, List.drop_left, List.all_eq_true]
  intro t ht
  rcases matchLoopGo_trades [] (sort_books (insertOrder book o)).buy_orders
      (sort_books (insertOrder book o)).sell_orders [] t ht with h | ⟨_, s, hmem, hsid, hsp⟩
  · exact absurd h (List.not_mem_nil t)
  · simp only [List.any_eq_true, Bool.and_eq_true, decide_eq_true_eq]
    exact ⟨s, hmem, hsid, hsp⟩

/-- C6: submitting Buy(1, 10, 1), Buy(2, 10, 1), Sell(3, 10, 2) from the
empty book yields exactly two trades totaling quantity 2, each buy id in
exactly one trade, and leaves both sides of the book empty. -/
theorem C6_two_buys_one_sell_scenario :
    (submitAll [⟨1, OrderType.Buy, 10, 1⟩, ⟨2, OrderType.Buy, 10, 1⟩,
        ⟨3, OrderType.Sell, 10, 2⟩]).trades.length = 2 ∧
      ((submitAll [⟨1, OrderType.Buy, 10, 1⟩, ⟨2, OrderType.Buy, 10, 1⟩,
        ⟨3, OrderType.Sell, 10, 2⟩]).trades.map Trade.quantity).sum = 2 ∧
      ((submitAll [⟨1, OrderType.Buy, 10, 1⟩, ⟨2, OrderType.Buy, 10, 1⟩,
        ⟨3, OrderType.Sell, 10, 2⟩]).trades.countP fun t => decide (t.buy_id = 1)) = 1 ∧
      ((submitAll [⟨1, OrderType.Buy, 10, 1⟩, ⟨2, OrderType.Buy, 10, 1⟩,
        ⟨3, OrderType.Sell, 10, 2⟩]).trades.countP fun t => decide (t.buy_id = 2)) = 1 ∧
      (submitAll [⟨1, OrderType.Buy, 10, 1⟩, ⟨2, OrderType.Buy, 10, 1⟩,
        ⟨3, OrderType.Sell, 10, 2⟩]).buy_orders = [] ∧
      (submitAll [⟨1, OrderType.Buy, 10, 1⟩, ⟨2, OrderType.Buy, 10, 1⟩,
        ⟨3, OrderType.Sell, 10, 2⟩]).sell_orders = [] := by
  with_unfolding_all (exact ⟨rfl, rfl, rfl, rfl, rfl, rfl⟩)

/-! ### Early-exit variant of the inner scan (C7) -/

/-- Variant of the inner scan that breaks out at the first non-crossing
sell order instead of continuing to step over the remaining sells. -/
def matchBuyGoBreak (buy : Order) (done rest : List Order) (trades : List Trade) :
    Order × List Order × List Trade :=
  match rest with
  | [] => (buy, done, trades)
  | sell :: rest' =>
    if sell.price ≤ buy.price then
      let qty := min buy.quantity sell.quantity
      let t : Trade := ⟨buy.id, sell.id, sell.price, qty⟩
      let buy' : Order := { buy with quantity := buy.quantity - qty }
      let sell' : Order := { sell with quantity := sell.quantity - qty }
      if sell'.quantity = 0 then
        if buy'.quantity = 0 then (buy', done ++ rest', trades ++ [t])
        else matchBuyGoBreak buy' done rest' (trades ++ [t])
      else
        if buy'.quantity = 0 then (buy', done ++ sell' :: rest', trades ++ [t])
        else matchBuyGoBreak buy' (done ++ [sell']) rest' (trades ++ [t])
    else
      -- early exit: no later (higher-priced) sell can cross either
      (buy, done ++ sell :: rest', trades)

/-- Outer loop over the early-exit inner scan. -/
def matchLoopGoBreak (done rest sells : List Order) (trades : List Trade) :
    List Order × List Order × List Trade :=
  match rest with
  | [] => (done, sells, trades)
  | buy :: rest' =>
    let r := matchBuyGoBreak buy [] sells trades
    if r.1.quantity = 0 then matchLoopGoBreak done rest' r.2.1 r.2.2
    else matchLoopGoBreak (done ++ [r.1]) rest' r.2.1 r.2.2

/-- Match step built on the early-exit inner scan. -/
def match_orders_break (b : OrderBook) : OrderBook :=
  let r := matchLoopGoBreak [] b.buy_orders b.sell_orders []
  ⟨r.1, r.2.1, b.trades ++ r.2.2⟩

/-- `add_order` built on the early-exit match step. -/
def add_order_break (b : OrderBook) (o : Order) : OrderBook :=
  match_orders_break (sort_books (insertOrder b o))

/-- `submitAll` built on the early-exit match step. -/
def submitAllBreak (os : List Order) : OrderBook := os.foldl add_order_break emptyBook

theorem matchBuyGo_all_nocross (buy : Order) (done rest : List Order) (tr : List Trade)
    (h : ∀ s ∈ rest, ¬ s.price ≤ buy.price) :
    matchBuyGo buy done rest tr = (buy, done ++ rest, tr) := by
  induction rest generalizing done with
  | nil => simp [matchBuyGo]
  | cons sell rest' ih =>
    have hc : ¬ sell.price ≤ buy.price := h sell (List.mem_cons_self sell rest')
    simp only [matchBuyGo, if_neg hc]
    rw [ih (done ++ [sell]) (fun s hs => h s (List.mem_cons_of_mem sell hs))]
    simp

theorem matchBuyGoBreak_eq (buy : Order) (done rest : List Order) (tr : List Trade)
    (hsort : rest.Pairwise sellRel) :
    matchBuyGoBreak buy done rest tr = matchBuyGo buy done rest tr := by
  induction rest generalizing buy done tr with
  | nil => rfl
  | cons sell rest' ih =>
    rcases List.pairwise_cons.mp hsort with ⟨hhead, htail⟩
    simp only [matchBuyGoBreak, matchBuyGo]
    split_ifs with hc hs hb hb
    · rfl
    · exact ih _ _ _ htail
    · rfl
    · exact ih _ _ _ htail
    · rw [matchBuyGo_all_nocross buy (done ++ [sell]) rest' tr
        (fun s hs hle => hc (le_trans (le_trans (hhead s hs) hle) (le_refl _)))]
      simp

theorem matchBuyGo_sells_sorted (buy : Order) (sells : List Order) (tr : List Trade)
    (hs : sells.Pairwise sellRel) :
    ((matchBuyGo buy [] sells tr).2.1).Pairwise sellRel := by
  have hsub : ((matchBuyGo buy [] sells tr).2.1).map key <+ sells.map key := by
    simpa using matchBuyGo_sells_key buy [] sells tr
  exact key_sublist_pairwise (Q := fun x y => x.2 ≤ y.2) hsub hs

theorem matchLoopGoBreak_eq (done rest sells : List Order) (tr : List Trade)
    (hs : sells.Pairwise sellRel) :
    matchLoopGoBreak done rest sells tr = matchLoopGo done rest sells tr := by
  induction rest generalizing done sells tr with
  | nil => rfl
  | cons buy rest' ih =>
    simp only [matchLoopGoBreak, matchLoopGo, matchBuyGoBreak_eq buy [] sells tr hs]
    have hs' := matchBuyGo_sells_sorted buy sells tr hs
    split_ifs with hq
    · exact ih _ _ _ hs'
    · exact ih _ _ _ hs'

/-- C7: given the sorted-book invariant on the sell side, the early-exit
match step agrees with the specified scan on every book; consequently the
two engines produce identical trades and book states on every submitted
order sequence. -/
theorem C7_early_exit_refinement :
    (∀ b : OrderBook, b.sell_orders.Pairwise sellRel →
        match_orders_break b = match_orders b) ∧
      ∀ os : List Order, submitAllBreak os = submitAll os := by
  have hmatch : ∀ b : OrderBook, b.sell_orders.Pairwise sellRel →
      match_orders_break b = match_orders b := by
    intro b hb
    simp only [match_orders_break, match_orders,
      matchLoopGoBreak_eq [] b.buy_orders b.sell_orders [] hb]
  refine ⟨hmatch, fun os => ?_⟩
  have hadd : ∀ (book : OrderBook) (o : Order), add_order_break book o = add_order book o := by
    intro book o
    exact hmatch _ (List.sorted_insertionSort sellRel _)
  have : ∀ (os : List Order) (book : OrderBook),
      os.foldl add_order_break book = os.foldl add_order book := by
    intro os
    induction os with
    | nil => intro book; rfl
    | cons o os' ih => intro book; simp only [List.foldl_cons, hadd, ih]
  exact this os emptyBook

theorem C7_early_exit_refinement_witness :
    ((⟨[⟨1, OrderType.Buy, 5, 1⟩], [⟨2, OrderType.Sell, 3, 1⟩], []⟩ :
        OrderBook).sell_orders.Pairwise sellRel) ∧
      match_orders_break ⟨[⟨1, OrderType.Buy, 5, 1⟩], [⟨2, OrderType.Sell, 3, 1⟩], []⟩ =
        match_orders ⟨[⟨1, OrderType.Buy, 5, 1⟩], [⟨2, OrderType.Sell, 3, 1⟩], []⟩ :=
  ⟨List.pairwise_singleton _ _, C7_early_exit_refinement.1 _ (List.pairwise_singleton _ _)⟩

/-! ### Termination of the nested scan, via explicit fuel (C9) -/

/-- Fuel-indexed inner scan: consumes one unit of fuel per inner-loop
iteration, returning `none` when the fuel runs out. -/
def matchBuyGoF : Nat → Order → List Order → List Order → List Trade →
    Option (Order × List Order × List Trade)
  | 0, _, _, _, _ => none
  | Nat.succ n, buy, done, rest, trades =>
    match rest with
    | [] => some (buy, done, trades)
    | sell :: rest' =>
      if sell.price ≤ buy.price then
        let qty := min buy.quantity sell.quantity
        let t : Trade := ⟨buy.id, sell.id, sell.price, qty⟩
        let buy' : Order := { buy with quantity := buy.quantity - qty }
        let sell' : Order := { sell with quantity := sell.quantity - qty }
        if sell'.quantity = 0 then
          if buy'.quantity = 0 then some (buy', done ++ rest', trades ++ [t])
          else matchBuyGoF n buy' done rest' (trades ++ [t])
        else
          if buy'.quantity = 0 then some (buy', done ++ sell' :: rest', trades ++ [t])
          else matchBuyGoF n buy' (done ++ [sell']) rest' (trades ++ [t])
      else
        matchBuyGoF n buy (done ++ [sell]) rest' trades

/-- Fuel-indexed outer loop: consumes one unit of fuel per outer-loop
iteration. -/
def matchLoopGoF : Nat → List Order → List Order → List Order → List Trade →
    Option (List Order × List Order × List Trade)
  | 0, _, _, _, _ => none
  | Nat.succ n, done, rest, sells, trades =>
    match rest with
    | [] => some (done, sells, trades)
    | buy :: rest' =>
      match matchBuyGoF n buy [] sells trades with
      | none => none
      | some r =>
        if r.1.quantity = 0 then matchLoopGoF n done rest' r.2.1 r.2.2
        else matchLoopGoF n (done ++ [r.1]) rest' r.2.1 r.2.2

/-- Fuel-indexed match step. -/
def match_ordersF (n : Nat) (b : OrderBook) : Option OrderBook :=
  (matchLoopGoF n [] b.buy_orders b.sell_orders []).map fun r => ⟨r.1, r.2.1, b.trades ++ r.2.2⟩

/-- Fuel-indexed `add_order`. -/
def add_orderF (n : Nat) (b : OrderBook) (o : Order) : Option OrderBook :=
  match_ordersF n (sort_books (insertOrder b o))

theorem matchBuyGoF_eq : ∀ (n : Nat) (buy : Order) (done rest : List Order) (tr : List Trade),
    rest.length < n → matchBuyGoF n buy done rest tr = some (matchBuyGo buy done rest tr)
  | 0, _, _, rest, _, h => absurd h (Nat.not_lt_zero _)
  | Nat.succ n, buy, done, [], tr, _ => by simp [matchBuyGoF, matchBuyGo]
  | Nat.succ n, buy, done, sell :: rest', tr, h => by
    have h' : rest'.length < n := by simpa using Nat.lt_of_succ_lt_succ h
    simp only [matchBuyGoF, matchBuyGo]
    split_ifs with hc hs hb hb
    · rfl
    · exact matchBuyGoF_eq n _ _ _ _ h'
    · rfl
    · exact matchBuyGoF_eq n _ _ _ _ h'
    · exact matchBuyGoF_eq n _ _ _ _ h'

theorem matchBuyGo_sells_length (buy : Order) (done rest : List Order) (tr : List Trade) :
    ((matchBuyGo buy done rest tr).2.1).length ≤ done.length + rest.length := by
  have h := (matchBuyGo_sells_key buy done rest tr).length_le
  simpa using h

theorem matchLoopGoF_eq : ∀ (n : Nat) (done rest sells : List Order) (tr : List Trade),
    rest.length + sells.length + 1 ≤ n →
    matchLoopGoF n done rest sells tr = some (matchLoopGo done rest sells tr)
  | 0, _, _, _, _, h => absurd h (by omega)
  | Nat.succ n, done, [], sells, tr, _ => by simp [matchLoopGoF, matchLoopGo]
  | Nat.succ n, done, buy :: rest', sells, tr, h => by
    have hlen : rest'.length + 1 + sells.length + 1 ≤ n + 1 := by simpa using h
    have hs : sells.length < n := by omega
    have hsl := matchBuyGo_sells_length buy [] sells tr
    simp only [List.length_nil, Nat.zero_add] at hsl
    simp only [matchLoopGoF, matchLoopGo, matchBuyGoF_eq n buy [] sells tr hs]
    split_ifs with hq
    · exact matchLoopGoF_eq n _ _ _ _ (by omega)
    · exact matchLoopGoF_eq n _ _ _ _ (by omega)

/-- C9: every `add_order` call terminates: some finite amount of fuel,
one unit per loop iteration of the nested scan, suffices for the
fuel-indexed engine to complete and agree with the total one. -/
theorem C9_termination (book : OrderBook) (o : Order) :
    ∃ n : Nat, add_orderF n book o = some (add_order book o) := by
  refine ⟨(sort_books (insertOrder book o)).buy_orders.length +
    (sort_books (insertOrder book o)).sell_orders.length + 1, ?_⟩
  have h := matchLoopGoF_eq
    ((sort_books (insertOrder book o)).buy_orders.length +
      (sort_books (insertOrder book o)).sell_orders.length + 1)
    [] (sort_books (insertOrder book o)).buy_orders
    (sort_books (insertOrder book o)).sell_orders [] (by omega)
  simp only [add_orderF, match_ordersF, add_order, match_orders, h]
  rfl

/-! ### Literal index-based model of the match step and runtime safety (C8) -/

theorem set_of_getElem? {α : Type _} :
    ∀ (l : List α) (i : Nat) (a : α), l[i]? = some a → l.set i a = l
  | [], i, _, h => by simp at h
  | x :: t, 0, a, h => by
    simp only [List.getElem?_cons_zero, Option.some_inj] at h
    simp [h]
  | x :: t, n + 1, a, h => by
    simp only [List.getElem?_cons_succ] at h
    simp [set_of_getElem? t n a h]

/-- Literal model of the inner `while` loop of `OrderBook::match_orders`:
index-based, with the indexing of `self.buy_orders[i]` modelled as a
fallible lookup (`none` models an out-of-bounds access, which in the
source would be a runtime failure); `j < sells.length` is the loop
condition itself, so `sells[j]` carries its in-bounds proof. -/
def matchInnerC (buys sells : List Order) (i j : Nat) (trades : List Trade) :
    Option (List Order × List Order × List Trade) :=
  if h : j < sells.length then
    match buys[i]? with
    | none => none
    | some buy =>
      let sell := sells[j]
      if sell.price ≤ buy.price then
        let qty := min buy.quantity sell.quantity
        let t : Trade := ⟨buy.id, sell.id, sell.price, qty⟩
        let buy' : Order := { buy with quantity := buy.quantity - qty }
        let sell' : Order := { sell with quantity := sell.quantity - qty }
        if sell'.quantity = 0 then
          if buy'.quantity = 0 then some (buys.set i buy', sells.eraseIdx j, trades ++ [t])
          else matchInnerC (buys.set i buy') (sells.eraseIdx j) i j (trades ++ [t])
        else
          if buy'.quantity = 0 then some (buys.set i buy', sells.set j sell', trades ++ [t])
          else matchInnerC (buys.set i buy') (sells.set j sell') i (j + 1) (trades ++ [t])
      else matchInnerC buys sells i (j + 1) trades
  else some (buys, sells, trades)
termination_by sells.length - j
decreasing_by
  · rw [List.length_eraseIdx, if_pos h]
    omega
  · rw [List.length_set]
    omega
  · omega

theorem matchInnerC_eq_go :
    ∀ (rest : List Order) (buy : Order) (buys done : List Order) (i : Nat) (tr : List Trade),
      buys[i]? = some buy →
      matchInnerC buys (done ++ rest) i done.length tr =
        some (buys.set i (matchBuyGo buy done rest tr).1,
          (matchBuyGo buy done rest tr).2.1, (matchBuyGo buy done rest tr).2.2)
  | [], buy, buys, done, i, tr, hbuy => by
    rw [matchInnerC, dif_neg (by simp), matchBuyGo]
    rw [List.append_nil, set_of_getElem? buys i buy hbuy]
  | sell :: rest', buy, buys, done, i, tr, hbuy => by
    have hlt : done.length < (done ++ sell :: rest').length := by simp
    have hget : (done ++ sell :: rest')[done.length] = sell := by
      rw [List.getElem_append_right (le_refl _)]
      simp
    have hi : i < buys.length := (List.getElem?_eq_some.mp hbuy).1
    have herase : (done ++ sell :: rest').eraseIdx done.length = done ++ rest' := by
      rw [List.eraseIdx_append_of_length_le (le_refl _)]
      simp
    have hsetS : ∀ s : Order, (done ++ sell :: rest').set done.length s = done ++ s :: rest' := by
      intro s
      rw [List.set_append_right _ _ (le_refl _)]
      simp
    have hsetB : ∀ q : ℚ, (buys.set i { buy with quantity := q })[i]? = some { buy with quantity := q } := fun _ => List.getElem?_set_self hi
    rw [matchInnerC, dif_pos hlt, hbuy]
    simp only [hget]
    simp only [matchBuyGo]
    split_ifs with hc hs hb hb
    · rw [herase]
    · rw [herase]
      have hrec := matchInnerC_eq_go rest' { buy with quantity := buy.quantity - min buy.quantity sell.quantity } (buys.set i { buy with quantity := buy.quantity - min buy.quantity sell.quantity }) done i (tr ++ [{ buy_id := buy.id, sell_id := sell.id, price := sell.price, quantity := min buy.quantity sell.quantity }]) (hsetB _)
      rw [hrec, List.set_set]
    · rw [hsetS]
    · have hrec := matchInnerC_eq_go rest' { buy with quantity := buy.quantity - min buy.quantity sell.quantity } (buys.set i { buy with quantity := buy.quantity - min buy.quantity sell.quantity }) (done ++ [{ sell with quantity := sell.quantity - min buy.quantity sell.quantity }]) i (tr ++ [{ buy_id := buy.id, sell_id := sell.id, price := sell.price, quantity := min buy.quantity sell.quantity }]) (hsetB _)
      simp only [List.append_assoc, List.singleton_append, List.length_append, List.length_cons, List.length_nil] at hrec
      rw [hsetS, hrec, List.set_set]
    · have hrec := matchInnerC_eq_go rest' buy buys (done ++ [sell]) i tr hbuy
      simp only [List.append_assoc, List.singleton_append, List.length_append, List.length_cons, List.length_nil] at hrec
      exact hrec

theorem matchInnerC_buys_length (buys sells : List Order) (i j : Nat) (tr : List Trade)
    (r : List Order × List Order × List Trade) (hr : matchInnerC buys sells i j tr = some r) :
    r.1.length = buys.length := by
  by_cases hj : j < sells.length
  · rcases hbi : buys[i]? with _ | buy
    · rw [matchInnerC, dif_pos hj, hbi] at hr
      simp at hr
    · have htd : sells.take j ++ sells.drop j = sells := List.take_append_drop j sells
      have hjl : (sells.take j).length = j := by
        rw [List.length_take]
        omega
      have heq := matchInnerC_eq_go (sells.drop j) buy buys (sells.take j) i tr hbi
      rw [htd, hjl] at heq
      rw [heq] at hr
      rcases Option.some_inj.mp hr with rfl
      simp
  · rw [matchInnerC, dif_neg hj] at hr
    rcases Option.some_inj.mp hr with rfl
    rfl

/-- Literal model of the outer `while` loop of `OrderBook::match_orders`,
with the `self.buy_orders[i]` access after the inner loop and the
`Vec::remove` calls modelled as fallible operations. -/
def matchLoopC (buys sells : List Order) (i : Nat) (trades : List Trade) :
    Option (List Order × List Order × List Trade) :=
  if hi : i < buys.length then
    match hm : matchInnerC buys sells i 0 trades with
    | none => none
    | some r =>
      match r.1[i]? with
      | none => none
      | some b =>
        if b.quantity = 0 then matchLoopC (r.1.eraseIdx i) r.2.1 i r.2.2
        else matchLoopC r.1 r.2.1 (i + 1) r.2.2
  else some (buys, sells, trades)
termination_by buys.length - i
decreasing_by
  · have hlen := matchInnerC_buys_length buys sells i 0 trades r hm
    rw [List.length_eraseIdx]
    split_ifs <;> omega
  · have hlen := matchInnerC_buys_length buys sells i 0 trades r hm
    omega

theorem matchLoopC_eq_go :
    ∀ (rest done sells : List Order) (tr : List Trade),
      matchLoopC (done ++ rest) sells done.length tr = some (matchLoopGo done rest sells tr)
  | [], done, sells, tr => by
    rw [matchLoopC, dif_neg (by simp), matchLoopGo, List.append_nil]
  | buy :: rest', done, sells, tr => by
    have hlt : done.length < (done ++ buy :: rest').length := by simp
    have hbuy : (done ++ buy :: rest')[done.length]? = some buy := by
      rw [List.getElem?_append_right (le_refl _)]
      simp
    have hinner := matchInnerC_eq_go sells buy (done ++ buy :: rest') [] done.length tr hbuy
    simp only [List.nil_append, List.length_nil] at hinner
    have hset : (done ++ buy :: rest').set done.length (matchBuyGo buy [] sells tr).1 =
        done ++ (matchBuyGo buy [] sells tr).1 :: rest' := by
      rw [List.set_append_right _ _ (le_refl _)]
      simp
    have hget : (done ++ (matchBuyGo buy [] sells tr).1 :: rest')[done.length]? =
        some (matchBuyGo buy [] sells tr).1 := by
      rw [List.getElem?_append_right (le_refl _)]
      simp
    have herase : (done ++ (matchBuyGo buy [] sells tr).1 :: rest').eraseIdx done.length =
        done ++ rest' := by
      rw [List.eraseIdx_append_of_length_le (le_refl _)]
      simp
    rw [matchLoopC, dif_pos hlt, hinner, hset]
    simp only [hget]
    rw [matchLoopGo]
    split_ifs with hq
    · rw [herase, matchLoopC_eq_go rest' done _ _]
    · have hlen : done.length + 1 = (done ++ [(matchBuyGo buy [] sells tr).1]).length := by simp
      have happ : done ++ (matchBuyGo buy [] sells tr).1 :: rest' =
          (done ++ [(matchBuyGo buy [] sells tr).1]) ++ rest' := by simp
      rw [hlen, happ, matchLoopC_eq_go rest' _ _ _]

/-- Literal index-based model of `OrderBook::match_orders`. -/
def match_ordersC (b : OrderBook) : Option OrderBook :=
  (matchLoopC b.buy_orders b.sell_orders 0 []).map fun r => ⟨r.1, r.2.1, b.trades ++ r.2.2⟩

/-- Literal index-based model of `OrderBook::add_order`. -/
def add_orderC (b : OrderBook) (o : Order) : Option OrderBook :=
  match_ordersC (sort_books (insertOrder b o))

/-- An `f64` price that may be NaN (`none` models NaN, `some q` a finite
value): `partial_cmp` on `f64` returns `None` exactly when an operand is
NaN. -/
def pcCmp : Option ℚ → Option ℚ → Option Ordering
  | some a, some b =>
    some (if a < b then Ordering.lt else if a = b then Ordering.eq else Ordering.gt)
  | _, _ => none

/-- The sort comparator `partial_cmp(..).unwrap_or(Ordering::Equal)` from
`OrderBook::sort_books`. -/
def cmpOrEqual (a b : Option ℚ) : Ordering := (pcCmp a b).getD Ordering.eq

/-- C8: `add_order` cannot fail at runtime: the literal index-based model
of the nested match loops, in which every `buy_orders[i]` access and
`Vec::remove` is fallible, always returns `some` and agrees with the total
model; and the sort comparator maps non-comparable (NaN) price pairs to
`Ordering::Equal` instead of failing. -/
theorem C8_runtime_safety :
    (∀ (book : OrderBook) (o : Order), add_orderC book o = some (add_order book o)) ∧
      ∀ a b : Option ℚ, a = none ∨ b = none → cmpOrEqual a b = Ordering.eq := by
  constructor
  · intro book o
    have h := matchLoopC_eq_go (sort_books (insertOrder book o)).buy_orders []
      (sort_books (insertOrder book o)).sell_orders []
    simp only [List.nil_append, List.length_nil] at h
    simp only [add_orderC, match_ordersC, add_order, match_orders, h]
    rfl
  · intro a b hab
    rcases hab with rfl | rfl
    · rfl
    · cases a <;> rfl

theorem C8_runtime_safety_witness :
    ((none : Option ℚ) = none ∨ (some (1 : ℚ) : Option ℚ) = none) ∧
      cmpOrEqual (none : Option ℚ) (some 1) = Ordering.eq ∧
      add_orderC emptyBook ⟨1, OrderType.Buy, 5, 2⟩ =
        some (add_order emptyBook ⟨1, OrderType.Buy, 5, 2⟩) :=
  ⟨Or.inl rfl, C8_runtime_safety.2 none (some 1) (Or.inl rfl),
    C8_runtime_safety.1 emptyBook ⟨1, OrderType.Buy, 5, 2⟩⟩

/-! ### FIFO order among equal-price resting orders (C10) -/

/-- Arrival (FIFO) order within a price level: whenever two resting
orders on the same side share a price, the one listed first has the
smaller (earlier-assigned) id. -/
def fifoOK (a b : Order) : Prop := a.price = b.price → a.id < b.id

theorem orderedInsert_fifo {r : Order → Order → Prop} [DecidableRel r]
    (hr : ∀ a b : Order, ¬ r a b → a.price ≠ b.price) (a : Order) :
    ∀ l : List Order, (∀ b ∈ l, fifoOK a b) → l.Pairwise fifoOK →
      (l.orderedInsert r a).Pairwise fifoOK
  | [], _, _ => List.pairwise_singleton fifoOK a
  | b :: t, ha, hp => by
    rw [List.orderedInsert]
    split_ifs with hrab
    · exact List.pairwise_cons.mpr ⟨ha, hp⟩
    · rcases List.pairwise_cons.mp hp with ⟨hb, ht⟩
      refine List.pairwise_cons.mpr ⟨?_, orderedInsert_fifo hr a t
        (fun x hx => ha x (List.mem_cons_of_mem b hx)) ht⟩
      intro x hx
      rcases (List.mem_orderedInsert r).mp hx with rfl | hx
      · exact fun hpeq => absurd hpeq.symm (hr x b hrab)
      · exact hb x hx

theorem insertionSort_fifo {r : Order → Order → Prop} [DecidableRel r]
    (hr : ∀ a b : Order, ¬ r a b → a.price ≠ b.price) :
    ∀ l : List Order, l.Pairwise fifoOK → (l.insertionSort r).Pairwise fifoOK
  | [], _ => List.Pairwise.nil
  | x :: xs, hp => by
    rw [List.insertionSort]
    rcases List.pairwise_cons.mp hp with ⟨hx, hxs⟩
    exact orderedInsert_fifo hr x _
      (fun b hb => hx b ((List.mem_insertionSort r).mp hb))
      (insertionSort_fifo hr xs hxs)

theorem buyRel_fifo_compat : ∀ a b : Order, ¬ buyRel a b → a.price ≠ b.price :=
  fun _ _ h => ne_of_lt (lt_of_not_le h)

theorem sellRel_fifo_compat : ∀ a b : Order, ¬ sellRel a b → a.price ≠ b.price :=
  fun _ _ h => ne_of_gt (lt_of_not_le h)

theorem add_order_fifo (book : OrderBook) (o : Order)
    (hf : book.buy_orders.Pairwise fifoOK ∧ book.sell_orders.Pairwise fifoOK)
    (hid : ∀ x ∈ bookOrders book, x.id < o.id) :
    (add_order book o).buy_orders.Pairwise fifoOK ∧
      (add_order book o).sell_orders.Pairwise fifoOK := by
  have hins : (insertOrder book o).buy_orders.Pairwise fifoOK ∧
      (insertOrder book o).sell_orders.Pairwise fifoOK := by
    cases hot : o.order_type with
    | Buy =>
      refine ⟨?_, by simpa [insertOrder, hot] using hf.2⟩
      simp only [insertOrder, hot]
      refine List.pairwise_append.mpr ⟨hf.1, List.pairwise_singleton _ _, ?_⟩
      intro x hx y hy
      rcases List.mem_singleton.mp hy with rfl
      exact fun _ => hid x (List.mem_append.mpr (Or.inl hx))
    | Sell =>
      refine ⟨by simpa [insertOrder, hot] using hf.1, ?_⟩
      simp only [insertOrder, hot]
      refine List.pairwise_append.mpr ⟨hf.2, List.pairwise_singleton _ _, ?_⟩
      intro x hx y hy
      rcases List.mem_singleton.mp hy with rfl
      exact fun _ => hid x (List.mem_append.mpr (Or.inr hx))
  have hsort : (sort_books (insertOrder book o)).buy_orders.Pairwise fifoOK ∧
      (sort_books (insertOrder book o)).sell_orders.Pairwise fifoOK :=
    ⟨insertionSort_fifo buyRel_fifo_compat _ hins.1,
      insertionSort_fifo sellRel_fifo_compat _ hins.2⟩
  constructor
  · have hsub : ((matchLoopGo [] (sort_books (insertOrder book o)).buy_orders
        (sort_books (insertOrder book o)).sell_orders []).1).map key <+
        ((sort_books (insertOrder book o)).buy_orders).map key := by
      simpa using matchLoopGo_buys_key [] (sort_books (insertOrder book o)).buy_orders
        (sort_books (insertOrder book o)).sell_orders []
    exact key_sublist_pairwise (Q := fun x y => x.2 = y.2 → x.1 < y.1) hsub hsort.1
  · have hsub := matchLoopGo_sells_key [] (sort_books (insertOrder book o)).buy_orders
      (sort_books (insertOrder book o)).sell_orders []
    exact key_sublist_pairwise (Q := fun x y => x.2 = y.2 → x.1 < y.1) hsub hsort.2

theorem add_order_ids (book : OrderBook) (o : Order) :
    ∀ x ∈ bookOrders (add_order book o),
      (∃ y ∈ bookOrders book, y.id = x.id) ∨ x.id = o.id := by
  intro x hx
  have hmem : (∃ y ∈ (sort_books (insertOrder book o)).buy_orders, y.id = x.id ∧
        y.price = x.price) ∨
      ∃ y ∈ (sort_books (insertOrder book o)).sell_orders, y.id = x.id ∧ y.price = x.price := by
    rcases List.mem_append.mp hx with h | h
    · have hsub : ((matchLoopGo [] (sort_books (insertOrder book o)).buy_orders
          (sort_books (insertOrder book o)).sell_orders []).1).map key <+
          ((sort_books (insertOrder book o)).buy_orders).map key := by
        simpa using matchLoopGo_buys_key [] (sort_books (insertOrder book o)).buy_orders
          (sort_books (insertOrder book o)).sell_orders []
      rcases key_sublist_mem hsub h with ⟨y, hy, hyid, hyp⟩
      exact Or.inl ⟨y, hy, hyid, hyp⟩
    · have hsub := matchLoopGo_sells_key [] (sort_books (insertOrder book o)).buy_orders
        (sort_books (insertOrder book o)).sell_orders []
      rcases key_sublist_mem hsub h with ⟨y, hy, hyid, hyp⟩
      exact Or.inr ⟨y, hy, hyid, hyp⟩
  have hmem' : ∃ y ∈ bookOrders (insertOrder book o), y.id = x.id := by
    rcases hmem with ⟨y, hy, hyid, _⟩ | ⟨y, hy, hyid, _⟩
    · exact ⟨y, List.mem_append.mpr (Or.inl ((List.mem_insertionSort buyRel).mp hy)), hyid⟩
    · exact ⟨y, List.mem_append.mpr (Or.inr ((List.mem_insertionSort sellRel).mp hy)), hyid⟩
  rcases hmem' with ⟨y, hy, hyid⟩
  cases hot : o.order_type with
  | Buy =>
    simp only [bookOrders, insertOrder, hot] at hy
    rcases List.mem_append.mp hy with h | h
    · rcases List.mem_append.mp h with h | h
      · exact Or.inl ⟨y, List.mem_append.mpr (Or.inl h), hyid⟩
      · rcases List.mem_singleton.mp h with rfl
        exact Or.inr hyid.symm
    · exact Or.inl ⟨y, List.mem_append.mpr (Or.inr h), hyid⟩
  | Sell =>
    simp only [bookOrders, insertOrder, hot] at hy
    rcases List.mem_append.mp hy with h | h
    · exact Or.inl ⟨y, List.mem_append.mpr (Or.inl h), hyid⟩
    · rcases List.mem_append.mp h with h | h
      · exact Or.inl ⟨y, List.mem_append.mpr (Or.inr h), hyid⟩
      · rcases List.mem_singleton.mp h with rfl
        exact Or.inr hyid.symm

theorem submitAll_fifo_aux : ∀ (os : List Order) (book : OrderBook),
    book.buy_orders.Pairwise fifoOK → book.sell_orders.Pairwise fifoOK →
    os.Pairwise (fun a b => a.id < b.id) →
    (∀ x ∈ bookOrders book, ∀ o ∈ os, x.id < o.id) →
    (os.foldl add_order book).buy_orders.Pairwise fifoOK ∧
      (os.foldl add_order book).sell_orders.Pairwise fifoOK
  | [], _, hb, hs, _, _ => ⟨hb, hs⟩
  | o :: os', book, hb, hs, hpw, hbnd => by
    rcases List.pairwise_cons.mp hpw with ⟨ho, hos⟩
    have hstep := add_order_fifo book o ⟨hb, hs⟩
      (fun x hx => hbnd x hx o (List.mem_cons_self o os'))
    refine submitAll_fifo_aux os' (add_order book o) hstep.1 hstep.2 hos ?_
    intro x hx o' ho'
    rcases add_order_ids book o x hx with ⟨y, hy, hyid⟩ | hxid
    · rw [← hyid]
      exact hbnd y hy o' (List.mem_cons_of_mem o ho')
    · rw [hxid]
      exact ho o' ho'

/-- C10: if orders are submitted with strictly increasing ids (arrival
order, as the CLI assigns them), then in every reachable book state
equal-price orders on each side appear in arrival order: appended at the
end of their side and kept in relative order by the stable sort and by
the match step. -/
theorem C10_fifo_within_price_level (os : List Order)
    (h : os.Pairwise fun a b => a.id < b.id) :
    (submitAll os).buy_orders.Pairwise fifoOK ∧
      (submitAll os).sell_orders.Pairwise fifoOK :=
  submitAll_fifo_aux os emptyBook List.Pairwise.nil List.Pairwise.nil h
    (by simp [bookOrders, emptyBook])

theorem C10_fifo_within_price_level_witness :
    ([(⟨1, OrderType.Buy, 10, 1⟩ : Order), ⟨2, OrderType.Buy, 10, 1⟩].Pairwise
        fun a b => a.id < b.id) ∧
      ((submitAll [(⟨1, OrderType.Buy, 10, 1⟩ : Order),
          ⟨2, OrderType.Buy, 10, 1⟩]).buy_orders.Pairwise fifoOK ∧
        (submitAll [(⟨1, OrderType.Buy, 10, 1⟩ : Order),
          ⟨2, OrderType.Buy, 10, 1⟩]).sell_orders.Pairwise fifoOK) := by
  have h : [(⟨1, OrderType.Buy, 10, 1⟩ : Order), ⟨2, OrderType.Buy, 10, 1⟩].Pairwise
      fun a b => a.id < b.id := by
    refine List.pairwise_cons.mpr ⟨?_, List.pairwise_singleton _ _⟩
    intro x hx
    rcases List.mem_singleton.mp hx with rfl
    exact Nat.one_lt_two
  exact ⟨h, C10_fifo_within_price_level _ h⟩

/-! ### Quantity conservation (C5) -/

/-- The quantity an order contributes under a given id. -/
def qtyAt (idv : Nat) (o : Order) : ℚ := if o.id = idv then o.quantity else 0

/-- Total resting quantity under a given id on one side. -/
def sideQty (idv : Nat) (l : List Order) : ℚ := (l.map (qtyAt idv)).sum

/-- The quantity a trade removes from orders with a given id (counting
both its buy reference and its sell reference). -/
def tradeRef (idv : Nat) (t : Trade) : ℚ :=
  (if t.buy_id = idv then t.quantity else 0) + (if t.sell_id = idv then t.quantity else 0)

/-- Total traded quantity charged against a given id. -/
def refQty (idv : Nat) (ts : List Trade) : ℚ := (ts.map (tradeRef idv)).sum

/-- Sum of the quantities of the trades referencing a given id (each
trade counted once). -/
def onceQty (idv : Nat) (ts : List Trade) : ℚ :=
  (ts.map fun t => if t.buy_id = idv ∨ t.sell_id = idv then t.quantity else 0).sum

theorem matchBuyGo_conserve (idv : Nat) (buy : Order) (done rest : List Order)
    (tr : List Trade) :
    qtyAt idv (matchBuyGo buy done rest tr).1 +
      sideQty idv (matchBuyGo buy done rest tr).2.1 +
      refQty idv (matchBuyGo buy done rest tr).2.2 =
    qtyAt idv buy + sideQty idv (done ++ rest) + refQty idv tr := by
  induction rest generalizing buy done tr with
  | nil => simp [matchBuyGo]
  | cons sell rest' ih =>
    simp only [matchBuyGo]
    split_ifs with hc hs hb hb
    · simp only [qtyAt, sideQty, refQty, tradeRef, List.map_append, List.sum_append,
        List.map_cons, List.sum_cons, List.map_nil, List.sum_nil]
      by_cases hB : buy.id = idv <;> by_cases hS : sell.id = idv <;>
        simp [hB, hS] <;> linarith
    · rw [ih]
      simp only [qtyAt, sideQty, refQty, tradeRef, List.map_append, List.sum_append,
        List.map_cons, List.sum_cons, List.map_nil, List.sum_nil]
      by_cases hB : buy.id = idv <;> by_cases hS : sell.id = idv <;>
        simp [hB, hS] <;> linarith
    · simp only [qtyAt, sideQty, refQty, tradeRef, List.map_append, List.sum_append,
        List.map_cons, List.sum_cons, List.map_nil, List.sum_nil]
      by_cases hB : buy.id = idv <;> by_cases hS : sell.id = idv <;>
        simp [hB, hS] <;> linarith
    · rw [ih]
      simp only [qtyAt, sideQty, refQty, tradeRef, List.map_append, List.sum_append,
        List.map_cons, List.sum_cons, List.map_nil, List.sum_nil]
      by_cases hB : buy.id = idv <;> by_cases hS : sell.id = idv <;>
        simp [hB, hS] <;> linarith
    · rw [ih]
      simp [sideQty, List.map_append, List.sum_append]

theorem matchLoopGo_conserve (idv : Nat) (done rest sells : List Order) (tr : List Trade) :
    sideQty idv (matchLoopGo done rest sells tr).1 +
      sideQty idv (matchLoopGo done rest sells tr).2.1 +
      refQty idv (matchLoopGo done rest sells tr).2.2 =
    sideQty idv (done ++ rest) + sideQty idv sells + refQty idv tr := by
  induction rest generalizing done sells tr with
  | nil => simp [matchLoopGo]
  | cons buy rest' ih =>
    simp only [matchLoopGo]
    have hin := matchBuyGo_conserve idv buy [] sells tr
    simp only [List.nil_append] at hin
    split_ifs with hq
    · rw [ih]
      have h0 : qtyAt idv (matchBuyGo buy [] sells tr).1 = 0 := by
        simp [qtyAt, hq]
      simp only [sideQty, List.map_append, List.sum_append, List.map_cons,
        List.sum_cons] at hin h0 ⊢
      linarith
    · rw [ih]
      simp only [sideQty, List.map_append, List.sum_append, List.map_cons,
        List.sum_cons, List.map_nil, List.sum_nil] at hin ⊢
      linarith

theorem match_orders_conserve (idv : Nat) (b : OrderBook) :
    sideQty idv (match_orders b).buy_orders + sideQty idv (match_orders b).sell_orders +
      refQty idv (match_orders b).trades =
    sideQty idv b.buy_orders + sideQty idv b.sell_orders + refQty idv b.trades := by
  have h := matchLoopGo_conserve idv [] b.buy_orders b.sell_orders []
  simp only [match_orders]
  simp only [sideQty, refQty, List.map_append, List.sum_append, List.nil_append,
    List.map_nil, List.sum_nil] at h ⊢
  linarith

theorem sort_books_conserve (idv : Nat) (b : OrderBook) :
    sideQty idv (sort_books b).buy_orders = sideQty idv b.buy_orders ∧
      sideQty idv (sort_books b).sell_orders = sideQty idv b.sell_orders := by
  constructor
  · exact ((List.perm_insertionSort buyRel b.buy_orders).map (qtyAt idv)).sum_eq
  · exact ((List.perm_insertionSort sellRel b.sell_orders).map (qtyAt idv)).sum_eq

theorem insertOrder_conserve (idv : Nat) (b : OrderBook) (o : Order) :
    sideQty idv (insertOrder b o).buy_orders + sideQty idv (insertOrder b o).sell_orders =
      sideQty idv b.buy_orders + sideQty idv b.sell_orders + qtyAt idv o := by
  cases hot : o.order_type <;>
    simp [insertOrder, hot, sideQty, List.map_append, List.sum_append] <;> ring

theorem add_order_conserve (idv : Nat) (book : OrderBook) (o : Order) :
    sideQty idv (add_order book o).buy_orders + sideQty idv (add_order book o).sell_orders +
      refQty idv (add_order book o).trades =
    sideQty idv book.buy_orders + sideQty idv book.sell_orders +
      refQty idv book.trades + qtyAt idv o := by
  have h1 := match_orders_conserve idv (sort_books (insertOrder book o))
  have h2 := sort_books_conserve idv (insertOrder book o)
  have h3 := insertOrder_conserve idv book o
  have h4 : (sort_books (insertOrder book o)).trades = book.trades := by
    simp [sort_books, insertOrder_trades]
  simp only [add_order] at *
  rw [h2.1, h2.2, h4] at h1
  linarith

theorem submitAll_conserve_aux (idv : Nat) : ∀ (os : List Order) (book : OrderBook),
    sideQty idv (os.foldl add_order book).buy_orders +
      sideQty idv (os.foldl add_order book).sell_orders +
      refQty idv (os.foldl add_order book).trades =
    sideQty idv book.buy_orders + sideQty idv book.sell_orders + refQty idv book.trades +
      (os.map (qtyAt idv)).sum
  | [], book => by simp
  | o :: os', book => by
    have h1 := submitAll_conserve_aux idv os' (add_order book o)
    have h2 := add_order_conserve idv book o
    simp only [List.foldl_cons, List.map_cons, List.sum_cons]
    rw [h1]
    linarith

theorem submitAll_conserve (idv : Nat) (os : List Order) :
    sideQty idv (submitAll os).buy_orders + sideQty idv (submitAll os).sell_orders +
      refQty idv (submitAll os).trades = (os.map (qtyAt idv)).sum := by
  have h := submitAll_conserve_aux idv os emptyBook
  simpa [submitAll, emptyBook, sideQty, refQty] using h

theorem matchBuyGo_sells_nonneg (buy : Order) (done rest : List Order) (tr : List Trade)
    (h : ∀ s ∈ done ++ rest, 0 ≤ s.quantity) :
    ∀ s ∈ (matchBuyGo buy done rest tr).2.1, 0 ≤ s.quantity := by
  induction rest generalizing buy done tr with
  | nil =>
    simp only [matchBuyGo]
    exact fun s hs => h s (by simpa using hs)
  | cons sell rest' ih =>
    have hmin_s : 0 ≤ sell.quantity - min buy.quantity sell.quantity :=
      sub_nonneg.mpr (min_le_right _ _)
    simp only [matchBuyGo]
    split_ifs with hc hs hb hb
    · intro s hmem
      rcases List.mem_append.mp hmem with hm | hm
      · exact h s (List.mem_append.mpr (Or.inl hm))
      · exact h s (List.mem_append.mpr (Or.inr (List.mem_cons_of_mem sell hm)))
    · refine ih _ _ _ (fun s hmem => ?_)
      rcases List.mem_append.mp hmem with hm | hm
      · exact h s (List.mem_append.mpr (Or.inl hm))
      · exact h s (List.mem_append.mpr (Or.inr (List.mem_cons_of_mem sell hm)))
    · intro s hmem
      rcases List.mem_append.mp hmem with hm | hm
      · exact h s (List.mem_append.mpr (Or.inl hm))
      · rcases List.mem_cons.mp hm with rfl | hm
        · exact hmin_s
        · exact h s (List.mem_append.mpr (Or.inr (List.mem_cons_of_mem sell hm)))
    · refine ih _ _ _ (fun s hmem => ?_)
      rcases List.mem_append.mp hmem with hm | hm
      · rcases List.mem_append.mp hm with hm | hm
        · exact h s (List.mem_append.mpr (Or.inl hm))
        · rcases List.mem_singleton.mp hm with rfl
          exact hmin_s
      · exact h s (List.mem_append.mpr (Or.inr (List.mem_cons_of_mem sell hm)))
    · refine ih _ _ _ (fun s hmem => ?_)
      rcases List.mem_append.mp hmem with hm | hm
      · rcases List.mem_append.mp hm with hm | hm
        · exact h s (List.mem_append.mpr (Or.inl hm))
        · rcases List.mem_singleton.mp hm with rfl
          exact h s (List.mem_append.mpr (Or.inr (List.mem_cons_self s rest')))
      · exact h s (List.mem_append.mpr (Or.inr (List.mem_cons_of_mem sell hm)))

theorem matchBuyGo_trades_nonneg (buy : Order) (done rest : List Order) (tr : List Trade)
    (hb0 : 0 ≤ buy.quantity) (hs0 : ∀ s ∈ rest, 0 ≤ s.quantity) :
    ∀ t ∈ (matchBuyGo buy done rest tr).2.2, t ∈ tr ∨ 0 ≤ t.quantity := by
  induction rest generalizing buy done tr with
  | nil =>
    simp only [matchBuyGo]
    exact fun t ht => Or.inl ht
  | cons sell rest' ih =>
    have hmin : (0 : ℚ) ≤ min buy.quantity sell.quantity :=
      le_min hb0 (hs0 sell (List.mem_cons_self sell rest'))
    have hb0' : 0 ≤ buy.quantity - min buy.quantity sell.quantity :=
      sub_nonneg.mpr (min_le_left _ _)
    have hs0' : ∀ s ∈ rest', 0 ≤ s.quantity :=
      fun s hm => hs0 s (List.mem_cons_of_mem sell hm)
    simp only [matchBuyGo]
    split_ifs with hc hs hb hb
    · intro t ht
      rcases List.mem_append.mp ht with hm | hm
      · exact Or.inl hm
      · rcases List.mem_singleton.mp hm with rfl
        exact Or.inr hmin
    · intro t ht
      rcases ih _ _ _ hb0' hs0' t ht with hm | hm
      · rcases List.mem_append.mp hm with hm | hm
        · exact Or.inl hm
        · rcases List.mem_singleton.mp hm with rfl
          exact Or.inr hmin
      · exact Or.inr hm
    · intro t ht
      rcases List.mem_append.mp ht with hm | hm
      · exact Or.inl hm
      · rcases List.mem_singleton.mp hm with rfl
        exact Or.inr hmin
    · intro t ht
      rcases ih _ _ _ hb0' hs0' t ht with hm | hm
      · rcases List.mem_append.mp hm with hm | hm
        · exact Or.inl hm
        · rcases List.mem_singleton.mp hm with rfl
          exact Or.inr hmin
      · exact Or.inr hm
    · exact fun t ht => ih _ _ _ hb0 hs0' t ht

theorem matchLoopGo_trades_nonneg (done rest sells : List Order) (tr : List Trade)
    (hb0 : ∀ b ∈ rest, 0 ≤ b.quantity) (hs0 : ∀ s ∈ sells, 0 ≤ s.quantity) :
    ∀ t ∈ (matchLoopGo done rest sells tr).2.2, t ∈ tr ∨ 0 ≤ t.quantity := by
  induction rest generalizing done sells tr with
  | nil =>
    simp only [matchLoopGo]
    exact fun t ht => Or.inl ht
  | cons buy rest' ih =>
    have hbuy0 : 0 ≤ buy.quantity := hb0 buy (List.mem_cons_self buy rest')
    have hb0' : ∀ b ∈ rest', 0 ≤ b.quantity := fun b hm => hb0 b (List.mem_cons_of_mem buy hm)
    have hsell' : ∀ s ∈ (matchBuyGo buy [] sells tr).2.1, 0 ≤ s.quantity :=
      matchBuyGo_sells_nonneg buy [] sells tr (by simpa using hs0)
    have hstep := matchBuyGo_trades_nonneg buy [] sells tr hbuy0 hs0
    simp only [matchLoopGo]
    split_ifs with hq
    · intro t ht
      rcases ih _ _ _ hb0' hsell' t ht with hm | hm
      · exact hstep t hm
      · exact Or.inr hm
    · intro t ht
      rcases ih _ _ _ hb0' hsell' t ht with hm | hm
      · exact hstep t hm
      · exact Or.inr hm

theorem submitAll_trades_nonneg : ∀ (os : List Order) (book : OrderBook),
    (∀ x ∈ bookOrders book, 0 < x.quantity) → (∀ o ∈ os, 0 < o.quantity) →
    (∀ t ∈ book.trades, 0 ≤ t.quantity) →
    ∀ t ∈ (os.foldl add_order book).trades, 0 ≤ t.quantity
  | [], _, _, _, htr => htr
  | o :: os', book, hbook, hos, htr => by
    have hopos : 0 < o.quantity := hos o (List.mem_cons_self o os')
    refine submitAll_trades_nonneg os' (add_order book o)
      (add_order_pos book o hbook hopos)
      (fun o' hm => hos o' (List.mem_cons_of_mem o hm)) ?_
    intro t ht
    have hsorted : ∀ y ∈ bookOrders (sort_books (insertOrder book o)), 0 ≤ y.quantity := by
      intro y hy
      rcases List.mem_append.mp hy with hm | hm
      · have hy' := (List.mem_insertionSort buyRel).mp hm
        cases hot : o.order_type <;> simp only [insertOrder, hot] at hy'
        · rcases List.mem_append.mp hy' with hm' | hm'
          · exact le_of_lt (hbook y (List.mem_append.mpr (Or.inl hm')))
          · rcases List.mem_singleton.mp hm' with rfl
            exact le_of_lt hopos
        · exact le_of_lt (hbook y (List.mem_append.mpr (Or.inl hy')))
      · have hy' := (List.mem_insertionSort sellRel).mp hm
        cases hot : o.order_type <;> simp only [insertOrder, hot] at hy'
        · exact le_of_lt (hbook y (List.mem_append.mpr (Or.inr hy')))
        · rcases List.mem_append.mp hy' with hm' | hm'
          · exact le_of_lt (hbook y (List.mem_append.mpr (Or.inr hm')))
          · rcases List.mem_singleton.mp hm' with rfl
            exact le_of_lt hopos
    have htr' : (add_order book o).trades =
        book.trades ++ (matchLoopGo [] (sort_books (insertOrder book o)).buy_orders
          (sort_books (insertOrder book o)).sell_orders []).2.2 := by
      simp [add_order, match_orders, sort_books, insertOrder_trades]
    rw [htr'] at ht
    rcases List.mem_append.mp ht with hm | hm
    · exact htr t hm
    · rcases matchLoopGo_trades_nonneg [] (sort_books (insertOrder book o)).buy_orders
        (sort_books (insertOrder book o)).sell_orders []
        (fun b hb => hsorted b (List.mem_append.mpr (Or.inl hb)))
        (fun s hs => hsorted s (List.mem_append.mpr (Or.inr hs))) t hm with hm' | hm'
      · exact absurd hm' (List.not_mem_nil t)
      · exact hm'

/-- Ghost-instrumented inner scan: identical control flow to
`matchBuyGo`, but each emitted trade is recorded together with the
remaining quantities of the buy and the sell order at the moment of the
match (just before the decrements). -/
def matchBuyGoG (buy : Order) (done rest : List Order) (acc : List (Trade × ℚ × ℚ)) :
    Order × List Order × List (Trade × ℚ × ℚ) :=
  match rest with
  | [] => (buy, done, acc)
  | sell :: rest' =>
    if sell.price ≤ buy.price then
      let qty := min buy.quantity sell.quantity
      let g : Trade × ℚ × ℚ :=
        (⟨buy.id, sell.id, sell.price, qty⟩, buy.quantity, sell.quantity)
      let buy' : Order := { buy with quantity := buy.quantity - qty }
      let sell' : Order := { sell with quantity := sell.quantity - qty }
      if sell'.quantity = 0 then
        if buy'.quantity = 0 then (buy', done ++ rest', acc ++ [g])
        else matchBuyGoG buy' done rest' (acc ++ [g])
      else
        if buy'.quantity = 0 then (buy', done ++ sell' :: rest', acc ++ [g])
        else matchBuyGoG buy' (done ++ [sell']) rest' (acc ++ [g])
    else
      matchBuyGoG buy (done ++ [sell]) rest' acc

/-- Ghost-instrumented outer loop. -/
def matchLoopGoG (done rest sells : List Order) (acc : List (Trade × ℚ × ℚ)) :
    List Order × List Order × List (Trade × ℚ × ℚ) :=
  match rest with
  | [] => (done, sells, acc)
  | buy :: rest' =>
    let r := matchBuyGoG buy [] sells acc
    if r.1.quantity = 0 then matchLoopGoG done rest' r.2.1 r.2.2
    else matchLoopGoG (done ++ [r.1]) rest' r.2.1 r.2.2

/-- Ghost-instrumented `submitAll`: runs the engine and also returns the
instrumented trade trace across all `add_order` calls. -/
def submitAllG (os : List Order) : OrderBook × List (Trade × ℚ × ℚ) :=
  os.foldl (fun p o =>
    let sorted := sort_books (insertOrder p.1 o)
    let r := matchLoopGoG [] sorted.buy_orders sorted.sell_orders []
    (⟨r.1, r.2.1, p.1.trades ++ r.2.2.map Prod.fst⟩, p.2 ++ r.2.2)) (emptyBook, [])

theorem matchBuyGoG_proj (buy : Order) (done rest : List Order) (acc : List (Trade × ℚ × ℚ)) :
    (matchBuyGoG buy done rest acc).1 = (matchBuyGo buy done rest (acc.map Prod.fst)).1 ∧
      (matchBuyGoG buy done rest acc).2.1 = (matchBuyGo buy done rest (acc.map Prod.fst)).2.1 ∧
      ((matchBuyGoG buy done rest acc).2.2).map Prod.fst =
        (matchBuyGo buy done rest (acc.map Prod.fst)).2.2 := by
  induction rest generalizing buy done acc with
  | nil => simp [matchBuyGoG, matchBuyGo]
  | cons sell rest' ih =>
    simp only [matchBuyGoG, matchBuyGo]
    split_ifs with hc hs hb hb
    · simp
    · have := ih { buy with quantity := buy.quantity - min buy.quantity sell.quantity } done
        (acc ++ [(⟨buy.id, sell.id, sell.price, min buy.quantity sell.quantity⟩,
          buy.quantity, sell.quantity)])
      simpa using this
    · simp
    · have := ih { buy with quantity := buy.quantity - min buy.quantity sell.quantity }
        (done ++ [{ sell with quantity := sell.quantity - min buy.quantity sell.quantity }])
        (acc ++ [(⟨buy.id, sell.id, sell.price, min buy.quantity sell.quantity⟩,
          buy.quantity, sell.quantity)])
      simpa using this
    · exact ih buy (done ++ [sell]) acc

theorem matchLoopGoG_proj (done rest sells : List Order) (acc : List (Trade × ℚ × ℚ)) :
    (matchLoopGoG done rest sells acc).1 = (matchLoopGo done rest sells (acc.map Prod.fst)).1 ∧
      (matchLoopGoG done rest sells acc).2.1 =
        (matchLoopGo done rest sells (acc.map Prod.fst)).2.1 ∧
      ((matchLoopGoG done rest sells acc).2.2).map Prod.fst =
        (matchLoopGo done rest sells (acc.map Prod.fst)).2.2 := by
  induction rest generalizing done sells acc with
  | nil => simp [matchLoopGoG, matchLoopGo]
  | cons buy rest' ih =>
    simp only [matchLoopGoG, matchLoopGo]
    have hp := matchBuyGoG_proj buy [] sells acc
    rw [hp.1]
    split_ifs with hq
    · have hih := ih done (matchBuyGoG buy [] sells acc).2.1 (matchBuyGoG buy [] sells acc).2.2
      rw [hih.1, hih.2.1, hih.2.2, hp.2.1, hp.2.2]
      exact ⟨rfl, rfl, rfl⟩
    · have hih := ih (done ++ [(matchBuyGo buy [] sells (acc.map Prod.fst)).1])
        (matchBuyGoG buy [] sells acc).2.1 (matchBuyGoG buy [] sells acc).2.2
      rw [hih.1, hih.2.1, hih.2.2, hp.2.1, hp.2.2]
      exact ⟨rfl, rfl, rfl⟩

theorem submitAllG_proj_aux : ∀ (os : List Order) (book : OrderBook)
    (acc : List (Trade × ℚ × ℚ)), acc.map Prod.fst = book.trades →
    (os.foldl (fun p o =>
      let sorted := sort_books (insertOrder p.1 o)
      let r := matchLoopGoG [] sorted.buy_orders sorted.sell_orders []
      (⟨r.1, r.2.1, p.1.trades ++ r.2.2.map Prod.fst⟩, p.2 ++ r.2.2)) (book, acc)).1 =
        os.foldl add_order book ∧
      ((os.foldl (fun p o =>
        let sorted := sort_books (insertOrder p.1 o)
        let r := matchLoopGoG [] sorted.buy_orders sorted.sell_orders []
        (⟨r.1, r.2.1, p.1.trades ++ r.2.2.map Prod.fst⟩, p.2 ++ r.2.2)) (book, acc)).2).map
          Prod.fst = (os.foldl add_order book).trades
  | [], book, acc, hacc => ⟨rfl, hacc⟩
  | o :: os', book, acc, hacc => by
    have hp := matchLoopGoG_proj [] (sort_books (insertOrder book o)).buy_orders
      (sort_books (insertOrder book o)).sell_orders []
    have hbook : (⟨(matchLoopGoG [] (sort_books (insertOrder book o)).buy_orders
        (sort_books (insertOrder book o)).sell_orders []).1,
        (matchLoopGoG [] (sort_books (insertOrder book o)).buy_orders
          (sort_books (insertOrder book o)).sell_orders []).2.1,
        book.trades ++ ((matchLoopGoG [] (sort_books (insertOrder book o)).buy_orders
          (sort_books (insertOrder book o)).sell_orders []).2.2).map Prod.fst⟩ : OrderBook) =
        add_order book o := by
      rw [hp.1, hp.2.1, hp.2.2]
      simp only [add_order, match_orders, List.map_nil]
      simp [sort_books, insertOrder_trades]
    have hstep := submitAllG_proj_aux os'
      (⟨(matchLoopGoG [] (sort_books (insertOrder book o)).buy_orders
          (sort_books (insertOrder book o)).sell_orders []).1,
        (matchLoopGoG [] (sort_books (insertOrder book o)).buy_orders
          (sort_books (insertOrder book o)).sell_orders []).2.1,
        book.trades ++ ((matchLoopGoG [] (sort_books (insertOrder book o)).buy_orders
          (sort_books (insertOrder book o)).sell_orders []).2.2).map Prod.fst⟩ : OrderBook)
      (acc ++ (matchLoopGoG [] (sort_books (insertOrder book o)).buy_orders
        (sort_books (insertOrder book o)).sell_orders []).2.2) (by
          rw [List.map_append, hacc])
    simp only [List.foldl_cons]
    exact ⟨hstep.1.trans (by rw [hbook]), hstep.2.trans (by rw [hbook])⟩

theorem submitAllG_proj (os : List Order) :
    (submitAllG os).1 = submitAll os ∧
      ((submitAllG os).2).map Prod.fst = (submitAll os).trades := by
  have h := submitAllG_proj_aux os emptyBook [] (by simp [emptyBook])
  exact h

theorem matchBuyGoG_min (buy : Order) (done rest : List Order) (acc : List (Trade × ℚ × ℚ)) :
    ∀ g ∈ (matchBuyGoG buy done rest acc).2.2,
      g ∈ acc ∨ g.1.quantity = min g.2.1 g.2.2 := by
  induction rest generalizing buy done acc with
  | nil =>
    simp only [matchBuyGoG]
    exact fun g hg => Or.inl hg
  | cons sell rest' ih =>
    simp only [matchBuyGoG]
    have hnew : ∀ g ∈ acc ++ [((⟨buy.id, sell.id, sell.price,
        min buy.quantity sell.quantity⟩ : Trade), buy.quantity, sell.quantity)],
        g ∈ acc ∨ g.1.quantity = min g.2.1 g.2.2 := by
      intro g hg
      rcases List.mem_append.mp hg with hm | hm
      · exact Or.inl hm
      · rcases List.mem_singleton.mp hm with rfl
        exact Or.inr rfl
    split_ifs with hc hs hb hb
    · exact hnew
    · intro g hg
      rcases ih _ _ _ g hg with hm | hm
      · exact hnew g hm
      · exact Or.inr hm
    · exact hnew
    · intro g hg
      rcases ih _ _ _ g hg with hm | hm
      · exact hnew g hm
      · exact Or.inr hm
    · exact fun g hg => ih _ _ _ g hg

theorem matchLoopGoG_min (done rest sells : List Order) (acc : List (Trade × ℚ × ℚ)) :
    ∀ g ∈ (matchLoopGoG done rest sells acc).2.2,
      g ∈ acc ∨ g.1.quantity = min g.2.1 g.2.2 := by
  induction rest generalizing done sells acc with
  | nil =>
    simp only [matchLoopGoG]
    exact fun g hg => Or.inl hg
  | cons buy rest' ih =>
    simp only [matchLoopGoG]
    have hstep := matchBuyGoG_min buy [] sells acc
    split_ifs with hq
    · intro g hg
      rcases ih _ _ _ g hg with hm | hm
      · exact hstep g hm
      · exact Or.inr hm
    · intro g hg
      rcases ih _ _ _ g hg with hm | hm
      · exact hstep g hm
      · exact Or.inr hm

theorem submitAllG_min_aux : ∀ (os : List Order) (book : OrderBook)
    (acc : List (Trade × ℚ × ℚ)),
    (∀ g ∈ acc, g.1.quantity = min g.2.1 g.2.2) →
    ∀ g ∈ (os.foldl (fun p o =>
      let sorted := sort_books (insertOrder p.1 o)
      let r := matchLoopGoG [] sorted.buy_orders sorted.sell_orders []
      (⟨r.1, r.2.1, p.1.trades ++ r.2.2.map Prod.fst⟩, p.2 ++ r.2.2)) (book, acc)).2,
      g.1.quantity = min g.2.1 g.2.2
  | [], _, _, hacc => hacc
  | o :: os', book, acc, hacc => by
    simp only [List.foldl_cons]
    refine submitAllG_min_aux os' _ _ ?_
    intro g hg
    rcases List.mem_append.mp hg with hm | hm
    · exact hacc g hm
    · rcases matchLoopGoG_min [] (sort_books (insertOrder book o)).buy_orders
        (sort_books (insertOrder book o)).sell_orders [] g hm with hm' | hm'
      · exact absurd hm' (List.not_mem_nil g)
      · exact hm'

theorem submitAllG_min (os : List Order) :
    ∀ g ∈ (submitAllG os).2, g.1.quantity = min g.2.1 g.2.2 :=
  submitAllG_min_aux os emptyBook [] (by simp)

theorem sideQty_nonneg (idv : Nat) (l : List Order) (h : ∀ x ∈ l, 0 ≤ x.quantity) :
    0 ≤ sideQty idv l := by
  refine List.sum_nonneg ?_
  intro y hy
  rcases List.mem_map.mp hy with ⟨x, hx, rfl⟩
  by_cases hB : x.id = idv <;> simp [qtyAt, hB]
  exact h x hx

theorem qtyAt_sum_zero (l : List Order) (idv : Nat) (h : ∀ y ∈ l, y.id ≠ idv) :
    (l.map (qtyAt idv)).sum = 0 := by
  refine List.sum_eq_zero ?_
  intro x hx
  rcases List.mem_map.mp hx with ⟨y, hy, rfl⟩
  simp [qtyAt, h y hy]

theorem sum_qtyAt_of_distinct : ∀ (os : List Order),
    os.Pairwise (fun a b => a.id ≠ b.id) → ∀ o ∈ os, (os.map (qtyAt o.id)).sum = o.quantity
  | [], _, o, h => absurd h (List.not_mem_nil o)
  | x :: os', hpw, o, hmem => by
    rcases List.pairwise_cons.mp hpw with ⟨hx, hos⟩
    rcases List.mem_cons.mp hmem with rfl | hmem'
    · simp only [List.map_cons, List.sum_cons]
      rw [qtyAt_sum_zero os' o.id (fun y hy => (hx y hy).symm)]
      simp [qtyAt]
    · have hxo : x.id ≠ o.id := hx o hmem'
      simp only [List.map_cons, List.sum_cons, qtyAt, if_neg hxo, zero_add]
      exact sum_qtyAt_of_distinct os' hos o hmem'

theorem onceQty_le_refQty (idv : Nat) (ts : List Trade)
    (h : ∀ t ∈ ts, 0 ≤ t.quantity) : onceQty idv ts ≤ refQty idv ts := by
  refine List.sum_le_sum ?_
  intro t ht
  have hq := h t ht
  by_cases hB : t.buy_id = idv <;> by_cases hS : t.sell_id = idv <;>
    simp [tradeRef, hB, hS] <;> linarith

/-- C5: for well-formed input (distinct ids, positive quantities): the
ghost-instrumented engine projects to the real one and records that every
trade's quantity equals `min` of the buy and sell remaining quantities at
the moment of the match; and the total traded quantity referencing any
submitted order's id never exceeds that order's initial quantity. -/
theorem C5_trade_quantity_and_conservation (os : List Order)
    (hid : os.Pairwise fun a b => a.id ≠ b.id) (hpos : ∀ o ∈ os, 0 < o.quantity) :
    (((submitAllG os).2).map Prod.fst = (submitAll os).trades ∧
      ∀ g ∈ (submitAllG os).2, g.1.quantity = min g.2.1 g.2.2) ∧
      ∀ o ∈ os, onceQty o.id (submitAll os).trades ≤ o.quantity := by
  refine ⟨⟨(submitAllG_proj os).2, submitAllG_min os⟩, ?_⟩
  intro o hmem
  have hcons := submitAll_conserve o.id os
  have hsum := sum_qtyAt_of_distinct os hid o hmem
  have hposbook := submitAll_pos os emptyBook (by simp [bookOrders, emptyBook]) hpos
  have hb1 : 0 ≤ sideQty o.id (submitAll os).buy_orders :=
    sideQty_nonneg _ _ (fun x hx => le_of_lt (hposbook x (List.mem_append.mpr (Or.inl hx))))
  have hb2 : 0 ≤ sideQty o.id (submitAll os).sell_orders :=
    sideQty_nonneg _ _ (fun x hx => le_of_lt (hposbook x (List.mem_append.mpr (Or.inr hx))))
  have htr : ∀ t ∈ (submitAll os).trades, 0 ≤ t.quantity :=
    submitAll_trades_nonneg os emptyBook (by simp [bookOrders, emptyBook]) hpos
      (by simp [emptyBook])
  have h1 : refQty o.id (submitAll os).trades ≤ o.quantity := by
    rw [hsum] at hcons
    linarith
  exact le_trans (onceQty_le_refQty _ _ htr) h1

theorem C5_trade_quantity_and_conservation_witness :
    (([(⟨1, OrderType.Buy, 10, 2⟩ : Order), ⟨2, OrderType.Sell, 10, 1⟩].Pairwise
        fun a b => a.id ≠ b.id) ∧
      ∀ o ∈ [(⟨1, OrderType.Buy, 10, 2⟩ : Order), ⟨2, OrderType.Sell, 10, 1⟩],
        0 < o.quantity) ∧
      ((((submitAllG [(⟨1, OrderType.Buy, 10, 2⟩ : Order),
            ⟨2, OrderType.Sell, 10, 1⟩]).2).map Prod.fst =
          (submitAll [(⟨1, OrderType.Buy, 10, 2⟩ : Order), ⟨2, OrderType.Sell, 10, 1⟩]).trades ∧
        ∀ g ∈ (submitAllG [(⟨1, OrderType.Buy, 10, 2⟩ : Order), ⟨2, OrderType.Sell, 10, 1⟩]).2,
          g.1.quantity = min g.2.1 g.2.2) ∧
        ∀ o ∈ [(⟨1, OrderType.Buy, 10, 2⟩ : Order), ⟨2, OrderType.Sell, 10, 1⟩],
          onceQty o.id (submitAll [(⟨1, OrderType.Buy, 10, 2⟩ : Order),
            ⟨2, OrderType.Sell, 10, 1⟩]).trades ≤ o.quantity) := by
  have hid : [(⟨1, OrderType.Buy, 10, 2⟩ : Order), ⟨2, OrderType.Sell, 10, 1⟩].Pairwise
      fun a b => a.id ≠ b.id := by
    refine List.pairwise_cons.mpr ⟨?_, List.pairwise_singleton _ _⟩
    intro x hx
    rcases List.mem_singleton.mp hx with rfl
    simp
  have hpos : ∀ o ∈ [(⟨1, OrderType.Buy, 10, 2⟩ : Order), ⟨2, OrderType.Sell, 10, 1⟩],
      0 < o.quantity := by
    intro o ho
    rcases List.mem_cons.mp ho with rfl | ho
    · norm_num
    · rcases List.mem_singleton.mp ho with rfl
      norm_num
  exact ⟨⟨hid, hpos⟩, C5_trade_quantity_and_conservation _ hid hpos⟩
